import Mathlib

/-!
Verification of the dynamic graph-partition structure in `src/common/graph.py`
(class `Graph` with `graph_from_json`, `get_border_vertices`,
`change_vertex_district`, `update_border`, and class `Vertex`).

Modelling choices (shallow embedding):
* Python `dict`s are association lists with Python-dict semantics: assignment
  overwrites the first binding in place when the key is present and appends a
  new binding at the end otherwise; `pop` removes the binding for the key.
* Python `set`s of ints are duplicate-free lists: `add` appends when the
  element is absent, `remove` filters the element out.  All set iterations in
  the source are order-insensitive in their net effect, so a fixed list order
  is faithful.
* The state tensor `self.state` only ever has column 0 written after
  construction (`state[v, 0] = ...`); the remaining columns hold the
  zero-padded adjacency, fixed at construction and never read or written by
  the operations verified here.  We therefore model column 0 as a dictionary
  from vertex id to an integer.
* Descriptor tensors `torch.tensor([vid, vertex.district_id, adj.district_id])`
  are triples of integers.
* Interior lookups `self.vertices[adj_vertex_id]` are total here via a default
  vertex; on a graph whose adjacency mentions an unknown id the Python code
  would raise `KeyError`, a case excluded by the `WF` hypothesis (closure) of
  every theorem that runs discovery or moves.  The initial lookup of
  `change_vertex_district`, whose `KeyError` behaviour is itself a claim, is
  modelled honestly in the `Except` monad.
-/

/-! ### Dictionary primitives (Python `dict` on a decidable key type) -/

/-- Lookup the first binding of key `k`. -/
def dget {κ β : Type} [DecidableEq κ] (l : List (κ × β)) (k : κ) : Option β :=
  match l with
  | [] => none
  | (a, b) :: t => if a = k then some b else dget t k

/-- Python `d[k] = v`: overwrite the first binding in place, else append. -/
def dinsert {κ β : Type} [DecidableEq κ] (l : List (κ × β)) (k : κ) (v : β) :
    List (κ × β) :=
  match l with
  | [] => [(k, v)]
  | (a, b) :: t => if a = k then (k, v) :: t else (a, b) :: dinsert t k v

/-- Python `d.pop(k)`: drop every binding of key `k` (keys are unique in a
Python dict, so dropping all occurrences agrees with dropping the one). -/
def dpop {κ β : Type} [DecidableEq κ] (l : List (κ × β)) (k : κ) :
    List (κ × β) :=
  match l with
  | [] => []
  | (a, b) :: t => if a = k then dpop t k else (a, b) :: dpop t k

/-! ### Set primitives (Python `set` of integers) -/

/-- Python `s.add(d)`. -/
def sadd (s : List Int) (d : Int) : List Int :=
  if d ∈ s then s else s ++ [d]

/-- Python `s.remove(d)` (on a duplicate-free list). -/
def sremove (s : List Int) (d : Int) : List Int :=
  match s with
  | [] => []
  | x :: t => if x = d then sremove t d else x :: sremove t d

/-! ### Data model: `Vertex` and `Graph` -/

/-- Embedding of the Python class `Vertex`: identity, current district, and
adjacency (a set of vertex ids, kept as a duplicate-free list). -/
structure Vertex where
  prescinct_id : Int
  district_id : Int
  adj_vertices : List Int
  deriving Repr, DecidableEq

/-- Embedding of the Python class `Graph`.  `vertices` is the dict
`self.vertices` (keyed by `prescinct_id`, kept in insertion order);
`vertex_on_border` is the dict of `(vertex_id, district_id)` actions;
`district_id_on_border_of_vertex` maps a vertex id to the set of bordering
district ids; `state` is column 0 of the state tensor. -/
structure Graph where
  vertices : List Vertex
  vertex_on_border : List ((Int × Int) × (Int × Int × Int))
  district_id_on_border_of_vertex : List (Int × List Int)
  state : List (Int × Int)
  deriving Repr, DecidableEq

/-- Lookup in the `self.vertices` dict. -/
def dgetV (vs : List Vertex) (i : Int) : Option Vertex :=
  match vs with
  | [] => none
  | v :: t => if v.prescinct_id = i then some v else dgetV t i

/-- Total vertex lookup; the default is never reached on closed graphs (the
Python code raises `KeyError` there). -/
def getV (vs : List Vertex) (i : Int) : Vertex :=
  (dgetV vs i).getD ⟨i, 0, []⟩

/-- Python `self.vertices[prescinct_id] = vertex` (dict overwrite). -/
def vinsert (vs : List Vertex) (v : Vertex) : List Vertex :=
  match vs with
  | [] => [v]
  | w :: t => if w.prescinct_id = v.prescinct_id then v :: t else w :: vinsert t v

/-- Python `self.vertices[prescinct_id].district_id = new_district_id`. -/
def setDistrict (vs : List Vertex) (pid nd : Int) : List Vertex :=
  vs.map (fun v => if v.prescinct_id = pid then { v with district_id := nd } else v)

/-! ### The operations of `Graph`, translated from `src/common/graph.py` -/

/-- Embedding of `Graph.update_border(self, vertex, adj_vertex)`: overwrite
the action descriptor for `(vertex.prescinct_id, adj_vertex.district_id)`,
mark the vertex's state entry with the negated district, and add the
neighbor's district to the vertex's bordering set (creating it when the `get`
returns `None`). -/
def update_border (g : Graph) (vertex adj_vertex : Vertex) : Graph :=
  let vid := vertex.prescinct_id
  let vob := dinsert g.vertex_on_border (vid, adj_vertex.district_id) (vid, vertex.district_id, adj_vertex.district_id)
  let st := dinsert g.state vid (-vertex.district_id)
  let cur := (dget g.district_id_on_border_of_vertex vid).getD []
  let dobv := dinsert g.district_id_on_border_of_vertex vid (sadd cur adj_vertex.district_id)
  { g with vertex_on_border := vob, state := st, district_id_on_border_of_vertex := dobv }

/-- One iteration of the border re-scan: look up the neighbor and, when its
district differs from `v`'s, record the border fact. -/
def rebuildStep (v : Vertex) (acc : Graph) (aid : Int) : Graph :=
  let a := getV acc.vertices aid
  if v.district_id ≠ a.district_id then update_border acc v a else acc

/-- Body shared by `get_border_vertices` and the re-scan loop at the end of
`change_vertex_district`: for each neighbor of `v` in a different district,
record the border fact. -/
def recomputeBorderOf (g : Graph) (v : Vertex) : Graph :=
  v.adj_vertices.foldl (rebuildStep v) g

/-- Embedding of `Graph.get_border_vertices(self)`. -/
def get_border_vertices (g : Graph) : Graph :=
  g.vertices.foldl recomputeBorderOf g

/-- One iteration of the clearing loop of `change_vertex_district`: pop the
border entry `(i, d)`, remove `d` from the live bordering set of `i`, and
reset the vertex's state entry to its (positive) district.
`vertex_on_border.pop` without a default would raise `KeyError` on a missing
key in Python; the lock-step invariant maintained by every verified run rules
that out, and our total `dpop` is the identity in that unreachable case. -/
def clearStep (i dist : Int) (acc : Graph) (d : Int) : Graph :=
  let vob := dpop acc.vertex_on_border (i, d)
  let live := (dget acc.district_id_on_border_of_vertex i).getD []
  let dobv := dinsert acc.district_id_on_border_of_vertex i (sremove live d)
  let st := dinsert acc.state i dist
  { acc with vertex_on_border := vob, district_id_on_border_of_vertex := dobv, state := st }

/-- The clearing loop of `change_vertex_district`: iterate over a snapshot
(`.copy()`) of `district_id_on_border_of_vertex[v]`; when the key is absent
(`get` returns `None`) nothing happens.  The key itself is never deleted, so a
vertex whose set empties keeps a binding to the empty set. -/
def clearBorderOf (g : Graph) (v : Vertex) : Graph :=
  match dget g.district_id_on_border_of_vertex v.prescinct_id with
  | none => g
  | some s => s.foldl (clearStep v.prescinct_id v.district_id) g

/-- One iteration of the loop over `list_to_check_possible_actions`: clear all
border information of `v`, then recompute it. -/
def processVertex (g : Graph) (v : Vertex) : Graph :=
  recomputeBorderOf (clearBorderOf g v) v

/-- Errors of `change_vertex_district`: the initial `self.vertices[...]`
lookup raises `KeyError`; both explicit `raise ValueError(...)` sites are the
spec's `InvalidMove`. -/
inductive MoveError where
  | keyError
  | invalidMove
  deriving Repr, DecidableEq

/-- The mutating tail of `change_vertex_district`, reached only after both
validations pass: assign the new district, patch the moved vertex's state
entry, and clear-then-rebuild the border data of the moved vertex's neighbors
followed by the moved vertex itself. -/
def moveBody (g : Graph) (prescinct_id new_district_id : Int) : Graph :=
  let g1 := { g with vertices := setDistrict g.vertices prescinct_id new_district_id,
                     state := dinsert g.state prescinct_id new_district_id }
  let moved := getV g1.vertices prescinct_id
  let affected := moved.adj_vertices.map (fun aid => getV g1.vertices aid) ++ [moved]
  affected.foldl processVertex g1

/-- Embedding of `Graph.change_vertex_district(self, prescinct_id,
new_district_id)`.  Both validation failures occur before any write, so the
error cases leave the graph unmodified. -/
def change_vertex_district (g : Graph) (prescinct_id new_district_id : Int) :
    Except MoveError Graph :=
  match dgetV g.vertices prescinct_id with
  | none => Except.error MoveError.keyError
  | some vertex =>
    if new_district_id = vertex.district_id then Except.error MoveError.invalidMove
    else if (dget g.vertex_on_border (prescinct_id, new_district_id)).isNone then
      Except.error MoveError.invalidMove
    else
      Except.ok (moveBody g prescinct_id new_district_id)

/-- Embedding of `Vertex.__init__` plus `Vertex.set_adj` for one data row
`(prescinct_id, cd_2020, adj)`. -/
def mkVertex (r : Int × Int × List Int) : Vertex :=
  ⟨r.1, r.2.1, r.2.2.foldl sadd []⟩

/-- Embedding of `Graph.graph_from_json`: build the vertices dict row by row
(a repeated id silently overwrites), then populate column 0 of the state
tensor with each vertex's district id. -/
def graph_from_json (rows : List (Int × Int × List Int)) : Graph :=
  let vs := rows.foldl (fun acc r => vinsert acc (mkVertex r)) []
  { vertices := vs,
    vertex_on_border := [],
    district_id_on_border_of_vertex := [],
    state := vs.foldl (fun st v => dinsert st v.prescinct_id v.district_id) [] }

/-- A sequence of `change_vertex_district` calls, stopping at the first
failure. -/
def applyMoves (g : Graph) (ms : List (Int × Int)) : Except MoveError Graph :=
  match ms with
  | [] => Except.ok g
  | (p, n) :: t =>
    match change_vertex_district g p n with
    | Except.ok g' => applyMoves g' t
    | Except.error e => Except.error e

/-- The last input row carrying a given id (Python dict assignment makes the
later row win). -/
def lastRowWith (rows : List (Int × Int × List Int)) (i : Int) :
    Option (Int × Int × List Int) :=
  match rows with
  | [] => none
  | r :: t =>
    match lastRowWith t i with
    | some r' => some r'
    | none => if r.1 = i then some r else none

/-! ### Specification predicates -/

/-- The bordering-district set currently recorded for vertex id `i` (empty
when the key is absent). -/
def setDOf (g : Graph) (i : Int) : List Int :=
  (dget g.district_id_on_border_of_vertex i).getD []

/-- Vertex `v` has at least one neighbor currently in district `d`, and `d`
is not `v`'s own district: the semantic condition for the border entry
`(v.prescinct_id, d)` to exist. -/
def bordersD (vs : List Vertex) (v : Vertex) (d : Int) : Prop :=
  d ≠ v.district_id ∧ ∃ aid ∈ v.adj_vertices, (getV vs aid).district_id = d

instance (vs : List Vertex) (v : Vertex) (d : Int) : Decidable (bordersD vs v d) := by
  unfold bordersD
  exact inferInstance

/-- Vertex `v` is a border vertex: some neighbor is in a different district. -/
def isBorderV (vs : List Vertex) (v : Vertex) : Prop :=
  ∃ aid ∈ v.adj_vertices, (getV vs aid).district_id ≠ v.district_id

instance (vs : List Vertex) (v : Vertex) : Decidable (isBorderV vs v) := by
  unfold isBorderV
  exact inferInstance

/-- The border data of `h` at vertex id `i` agrees with that of `g`:
identical border-index lookups, bordering-set binding and state entry. -/
def SameAt (g h : Graph) (i : Int) : Prop :=
  (∀ d, dget h.vertex_on_border (i, d) = dget g.vertex_on_border (i, d)) ∧
  dget h.district_id_on_border_of_vertex i = dget g.district_id_on_border_of_vertex i ∧
  dget h.state i = dget g.state i

/-- All border data recorded for vertex `v` is exactly what `v`'s current
neighborhood warrants: the border index holds a fresh descriptor for
`(v, d)` exactly when `v` borders `d`, the bordering set contains exactly the
bordered districts, and `v`'s state entry is its district, negated exactly
when `v` is a border vertex. -/
def GoodV (g : Graph) (v : Vertex) : Prop :=
  (∀ d, dget g.vertex_on_border (v.prescinct_id, d) =
      if bordersD g.vertices v d then some (v.prescinct_id, v.district_id, d) else none) ∧
  (∀ d, d ∈ setDOf g v.prescinct_id ↔ bordersD g.vertices v d) ∧
  dget g.state v.prescinct_id =
    some (if isBorderV g.vertices v then -v.district_id else v.district_id)

/-- Structural well-formedness: vertex ids are unique, adjacency refers only
to existing vertices (closure — otherwise the Python code raises `KeyError`),
and adjacency is symmetric (assumed but not enforced by the source; the
spec's locality argument depends on it). -/
def WF (g : Graph) : Prop :=
  (g.vertices.map (fun v => v.prescinct_id)).Nodup ∧
  ∀ v ∈ g.vertices, ∀ aid ∈ v.adj_vertices,
    (dgetV g.vertices aid).isSome = true ∧ v.prescinct_id ∈ (getV g.vertices aid).adj_vertices

instance (g : Graph) : Decidable (WF g) := by
  unfold WF
  exact inferInstance

/-- The border-maintenance invariant: every vertex's border data is correct. -/
def BorderInv (g : Graph) : Prop :=
  ∀ v ∈ g.vertices, GoodV g v

/-- A freshly constructed graph: empty border index and bordering sets, and a
state entry holding each vertex's (positive) district id. -/
def Fresh (g : Graph) : Prop :=
  g.vertex_on_border = [] ∧ g.district_id_on_border_of_vertex = [] ∧
  ∀ v ∈ g.vertices, dget g.state v.prescinct_id = some v.district_id

/-- Vertex id `i` has no border data yet and a fresh state entry (used while
discovery sweeps the vertex list). -/
def FreshAt (g : Graph) (i : Int) : Prop :=
  (∀ d, dget g.vertex_on_border (i, d) = none) ∧
  dget g.district_id_on_border_of_vertex i = none ∧
  dget g.state i = some (getV g.vertices i).district_id

/-! ### The spec's concrete scenario: 4 vertices on a path, districts A=1, B=2 -/

/-- Rows of the spec's scenario: ids 1-4, path adjacency 1-2, 2-3, 3-4,
initial districts `[A, A, B, B]` with A = 1, B = 2. -/
def scenarioRows : List (Int × Int × List Int) :=
  [(1, 1, [2]), (2, 1, [1, 3]), (3, 2, [2, 4]), (4, 2, [3])]

/-- The scenario graph after construction and border discovery. -/
def scenarioDiscovered : Graph :=
  get_border_vertices (graph_from_json scenarioRows)

/-- The scenario graph after moving vertex 2 to district B = 2. -/
def scenarioMoved : Graph :=
  match change_vertex_district scenarioDiscovered 2 2 with
  | Except.ok g => g
  | Except.error _ => scenarioDiscovered

/-! ### Lemmas about the dictionary and set primitives -/

theorem dget_dinsert {κ β : Type} [DecidableEq κ] (l : List (κ × β)) (k k' : κ)
    (v : β) : dget (dinsert l k v) k' = if k' = k then some v else dget l k' := by
  induction l with
  | nil =>
    by_cases h : k' = k
    · subst h; simp [dinsert, dget]
    · simp [dinsert, dget, h, Ne.symm h]
  | cons p t ih =>
    obtain ⟨a, b⟩ := p
    by_cases hak : a = k
    · subst hak
      by_cases h : a = k'
      · subst h; simp [dinsert, dget]
      · simp [dinsert, dget, h, Ne.symm h]
    · by_cases h : a = k'
      · subst h
        simp [dinsert, dget, hak]
      · simp [dinsert, dget, hak, h, ih]

theorem dget_dpop {κ β : Type} [DecidableEq κ] (l : List (κ × β)) (k k' : κ) :
    dget (dpop l k) k' = if k' = k then none else dget l k' := by
  induction l with
  | nil =>
    by_cases h : k' = k <;> simp [dpop, dget, h]
  | cons p t ih =>
    obtain ⟨a, b⟩ := p
    by_cases hak : a = k
    · subst hak
      by_cases h : k' = a
      · subst h
        simp [dpop, dget, ih]
      · simp [dpop, dget, ih, h, Ne.symm h]
    · by_cases h : a = k'
      · subst h
        simp [dpop, dget, hak]
      · simp [dpop, dget, hak, h, ih]

theorem dinsert_same {κ β : Type} [DecidableEq κ] (l : List (κ × β)) (k : κ)
    (v : β) (h : dget l k = some v) : dinsert l k v = l := by
  induction l with
  | nil => simp [dget] at h
  | cons p t ih =>
    obtain ⟨a, b⟩ := p
    by_cases hak : a = k
    · subst hak
      simp [dget] at h
      simp [dinsert, h]
    · simp [dget, hak] at h
      simp [dinsert, hak, ih h]

theorem mem_dinsert {κ β : Type} [DecidableEq κ] (l : List (κ × β)) (k : κ)
    (v : β) (p : κ × β) (h : p ∈ dinsert l k v) : p ∈ l ∨ p.1 = k := by
  induction l with
  | nil =>
    simp [dinsert] at h
    simp [h]
  | cons q t ih =>
    obtain ⟨a, b⟩ := q
    by_cases hak : a = k
    · subst hak
      simp [dinsert] at h
      rcases h with h | h
      · right; simp [h]
      · left; exact List.mem_cons_of_mem _ h
    · simp [dinsert, hak] at h
      rcases h with h | h
      · left; simp [h]
      · rcases ih h with h' | h'
        · left; exact List.mem_cons_of_mem _ h'
        · right; exact h'

theorem mem_dpop {κ β : Type} [DecidableEq κ] (l : List (κ × β)) (k : κ)
    (p : κ × β) (h : p ∈ dpop l k) : p ∈ l := by
  induction l with
  | nil => simp [dpop] at h
  | cons q t ih =>
    obtain ⟨a, b⟩ := q
    by_cases hak : a = k
    · simp [dpop, hak] at h
      exact List.mem_cons_of_mem _ (ih h)
    · simp [dpop, hak] at h
      rcases h with h | h
      · simp [h]
      · exact List.mem_cons_of_mem _ (ih h)

theorem mem_sadd (s : List Int) (d x : Int) :
    x ∈ sadd s d ↔ x ∈ s ∨ x = d := by
  unfold sadd
  by_cases h : d ∈ s
  · simp only [if_pos h]
    constructor
    · exact Or.inl
    · rintro (hx | hx)
      · exact hx
      · exact hx ▸ h
  · simp [h]

theorem sadd_mem (s : List Int) (d : Int) (h : d ∈ s) : sadd s d = s := by
  simp [sadd, h]

theorem mem_sremove (s : List Int) (d x : Int) :
    x ∈ sremove s d ↔ x ∈ s ∧ x ≠ d := by
  induction s with
  | nil => simp [sremove]
  | cons y t ih =>
    by_cases h : y = d
    · subst h
      have hs : sremove (y :: t) y = sremove t y := by simp [sremove]
      rw [hs, ih, List.mem_cons]
      constructor
      · rintro ⟨hx, hxd⟩
        exact ⟨Or.inr hx, hxd⟩
      · rintro ⟨hx | hx, hxd⟩
        · exact absurd hx hxd
        · exact ⟨hx, hxd⟩
    · simp only [sremove, if_neg h, List.mem_cons, ih]
      constructor
      · rintro (hx | ⟨hx, hxd⟩)
        · exact ⟨Or.inl hx, hx ▸ h⟩
        · exact ⟨Or.inr hx, hxd⟩
      · rintro ⟨hx | hx, hxd⟩
        · exact Or.inl hx
        · exact Or.inr ⟨hx, hxd⟩

/-! ### Lemmas about vertex lookup and district assignment -/

theorem dgetV_id (vs : List Vertex) (i : Int) (v : Vertex)
    (h : dgetV vs i = some v) : v.prescinct_id = i := by
  induction vs with
  | nil => simp [dgetV] at h
  | cons w t ih =>
    by_cases hw : w.prescinct_id = i
    · simp [dgetV, hw] at h
      exact h ▸ hw
    · simp [dgetV, hw] at h
      exact ih h

theorem dgetV_mem (vs : List Vertex) (i : Int) (v : Vertex)
    (h : dgetV vs i = some v) : v ∈ vs := by
  induction vs with
  | nil => simp [dgetV] at h
  | cons w t ih =>
    by_cases hw : w.prescinct_id = i
    · simp [dgetV, hw] at h
      simp [h]
    · simp [dgetV, hw] at h
      exact List.mem_cons_of_mem _ (ih h)

theorem mem_dgetV (vs : List Vertex) (v : Vertex)
    (hnd : (vs.map (fun w => w.prescinct_id)).Nodup) (hv : v ∈ vs) :
    dgetV vs v.prescinct_id = some v := by
  induction vs with
  | nil => simp at hv
  | cons w t ih =>
    simp only [List.map_cons, List.nodup_cons] at hnd
    rcases List.mem_cons.mp hv with h | h
    · subst h
      simp [dgetV]
    · have hne : w.prescinct_id ≠ v.prescinct_id := by
        intro he
        exact hnd.1 (he ▸ List.mem_map_of_mem (fun x => x.prescinct_id) h)
      simp [dgetV, hne, ih hnd.2 h]

theorem getV_id (vs : List Vertex) (i : Int) : (getV vs i).prescinct_id = i := by
  unfold getV
  cases h : dgetV vs i with
  | none => simp
  | some v => simp [dgetV_id vs i v h]

theorem getV_of_mem (vs : List Vertex) (v : Vertex)
    (hnd : (vs.map (fun w => w.prescinct_id)).Nodup) (hv : v ∈ vs) :
    getV vs v.prescinct_id = v := by
  unfold getV
  rw [mem_dgetV vs v hnd hv]
  rfl

theorem dgetV_setDistrict (vs : List Vertex) (pid nd i : Int) :
    dgetV (setDistrict vs pid nd) i =
      (dgetV vs i).map (fun v => if v.prescinct_id = pid then { v with district_id := nd } else v) := by
  induction vs with
  | nil => simp [setDistrict, dgetV]
  | cons w t ih =>
    have hid : (if w.prescinct_id = pid then { w with district_id := nd } else w).prescinct_id
        = w.prescinct_id := by
      by_cases hw : w.prescinct_id = pid <;> simp [hw]
    simp only [setDistrict, List.map_cons] at ih ⊢
    simp only [dgetV, hid]
    by_cases hwi : w.prescinct_id = i
    · simp [hwi]
    · simp only [if_neg hwi]
      exact ih

theorem getV_setDistrict_adj (vs : List Vertex) (pid nd i : Int) :
    (getV (setDistrict vs pid nd) i).adj_vertices = (getV vs i).adj_vertices := by
  unfold getV
  rw [dgetV_setDistrict]
  cases h : dgetV vs i with
  | none => simp
  | some v =>
    by_cases hv : v.prescinct_id = pid <;> simp [hv]

theorem getV_setDistrict_ne (vs : List Vertex) (pid nd i : Int) (h : i ≠ pid) :
    getV (setDistrict vs pid nd) i = getV vs i := by
  unfold getV
  rw [dgetV_setDistrict]
  cases hv : dgetV vs i with
  | none => simp
  | some v =>
    have : v.prescinct_id ≠ pid := by
      rw [dgetV_id vs i v hv]
      exact h
    simp [this]

theorem getV_setDistrict_self (vs : List Vertex) (pid nd : Int) (v : Vertex)
    (h : dgetV vs pid = some v) :
    getV (setDistrict vs pid nd) pid = { v with district_id := nd } := by
  unfold getV
  rw [dgetV_setDistrict, h]
  simp [dgetV_id vs pid v h]

theorem setDistrict_ids (vs : List Vertex) (pid nd : Int) :
    (setDistrict vs pid nd).map (fun v => v.prescinct_id) =
      vs.map (fun v => v.prescinct_id) := by
  unfold setDistrict
  rw [List.map_map]
  apply List.map_congr_left
  intro v _
  by_cases hv : v.prescinct_id = pid <;> simp [hv]

theorem vinsert_dgetV (vs : List Vertex) (v : Vertex) (i : Int) :
    dgetV (vinsert vs v) i = if v.prescinct_id = i then some v else dgetV vs i := by
  induction vs with
  | nil => simp [vinsert, dgetV]
  | cons w t ih =>
    by_cases hw : w.prescinct_id = v.prescinct_id
    · by_cases hv : v.prescinct_id = i
      · simp [vinsert, dgetV, hw, hv]
      · have hwi : w.prescinct_id ≠ i := fun h => hv (hw ▸ h)
        simp [vinsert, dgetV, hw, hv, hwi]
    · by_cases hwi : w.prescinct_id = i
      · have hv : v.prescinct_id ≠ i := fun h => hw (hwi.trans h.symm)
        simp [vinsert, dgetV, hw, hwi, hv, Ne.symm hv]
      · simp [vinsert, dgetV, hw, hwi, ih]

/-! ### The operations never touch the vertices dict (only districts change) -/

theorem update_border_vertices (g : Graph) (v a : Vertex) :
    (update_border g v a).vertices = g.vertices := rfl

theorem clearStep_vertices (i dist : Int) (acc : Graph) (d : Int) :
    (clearStep i dist acc d).vertices = acc.vertices := rfl

theorem foldl_vertices {α : Type} (f : Graph → α → Graph)
    (hf : ∀ g x, (f g x).vertices = g.vertices) :
    ∀ (l : List α) (g : Graph), (l.foldl f g).vertices = g.vertices := by
  intro l
  induction l with
  | nil => intro g; rfl
  | cons x t ih =>
    intro g
    rw [List.foldl_cons, ih, hf]

theorem rebuildStep_vertices (v : Vertex) (acc : Graph) (aid : Int) :
    (rebuildStep v acc aid).vertices = acc.vertices := by
  unfold rebuildStep
  dsimp only
  split
  · rfl
  · rfl

theorem recomputeBorderOf_vertices (g : Graph) (v : Vertex) :
    (recomputeBorderOf g v).vertices = g.vertices := by
  unfold recomputeBorderOf
  exact foldl_vertices (rebuildStep v) (rebuildStep_vertices v) v.adj_vertices g

theorem clearBorderOf_vertices (g : Graph) (v : Vertex) :
    (clearBorderOf g v).vertices = g.vertices := by
  unfold clearBorderOf
  cases hdg : dget g.district_id_on_border_of_vertex v.prescinct_id with
  | none => rfl
  | some s =>
    show (s.foldl (clearStep v.prescinct_id v.district_id) g).vertices = g.vertices
    exact foldl_vertices (clearStep v.prescinct_id v.district_id) (fun acc d => rfl) s g

theorem processVertex_vertices (g : Graph) (v : Vertex) :
    (processVertex g v).vertices = g.vertices := by
  unfold processVertex
  rw [recomputeBorderOf_vertices, clearBorderOf_vertices]

theorem moveBody_vertices (g : Graph) (pid nd : Int) :
    (moveBody g pid nd).vertices = setDistrict g.vertices pid nd := by
  unfold moveBody
  rw [foldl_vertices processVertex processVertex_vertices]

/-! ### Frame lemmas: all writes are keyed by the processed vertex's id -/

theorem SameAt_refl (g : Graph) (i : Int) : SameAt g g i :=
  ⟨fun _ => rfl, rfl, rfl⟩

theorem SameAt_trans {g h k : Graph} {i : Int}
    (h1 : SameAt g h i) (h2 : SameAt h k i) : SameAt g k i :=
  ⟨fun d => (h2.1 d).trans (h1.1 d), h2.2.1.trans h1.2.1, h2.2.2.trans h1.2.2⟩

theorem update_border_SameAt (g : Graph) (v a : Vertex) (i : Int)
    (hne : i ≠ v.prescinct_id) : SameAt g (update_border g v a) i := by
  refine ⟨fun d => ?_, ?_, ?_⟩
  · show dget (dinsert g.vertex_on_border (v.prescinct_id, a.district_id) _) (i, d) = _
    rw [dget_dinsert]
    have hp : ¬((i, d) = (v.prescinct_id, a.district_id)) := by
      intro hp
      exact hne (congrArg Prod.fst hp)
    rw [if_neg hp]
  · show dget (dinsert g.district_id_on_border_of_vertex v.prescinct_id _) i = _
    rw [dget_dinsert, if_neg hne]
  · show dget (dinsert g.state v.prescinct_id _) i = _
    rw [dget_dinsert, if_neg hne]

theorem clearStep_SameAt (j dist : Int) (acc : Graph) (d i : Int)
    (hne : i ≠ j) : SameAt acc (clearStep j dist acc d) i := by
  refine ⟨fun d' => ?_, ?_, ?_⟩
  · show dget (dpop acc.vertex_on_border (j, d)) (i, d') = _
    rw [dget_dpop]
    have hp : ¬((i, d') = (j, d)) := by
      intro hp
      exact hne (congrArg Prod.fst hp)
    rw [if_neg hp]
  · show dget (dinsert acc.district_id_on_border_of_vertex j _) i = _
    rw [dget_dinsert, if_neg hne]
  · show dget (dinsert acc.state j dist) i = _
    rw [dget_dinsert, if_neg hne]

theorem foldl_SameAt {α : Type} (f : Graph → α → Graph) (i : Int) (l : List α)
    (hf : ∀ g x, x ∈ l → SameAt g (f g x) i) :
    ∀ g, SameAt g (l.foldl f g) i := by
  induction l with
  | nil => intro g; exact SameAt_refl g i
  | cons x t ih =>
    intro g
    rw [List.foldl_cons]
    exact SameAt_trans (hf g x (List.mem_cons_self x t))
      (ih (fun g' y hy => hf g' y (List.mem_cons_of_mem x hy)) (f g x))

theorem recomputeBorderOf_SameAt (g : Graph) (v : Vertex) (i : Int)
    (hne : i ≠ v.prescinct_id) : SameAt g (recomputeBorderOf g v) i := by
  unfold recomputeBorderOf
  apply foldl_SameAt
  intro g' aid _
  unfold rebuildStep
  dsimp only
  split
  · exact update_border_SameAt g' v _ i hne
  · exact SameAt_refl g' i

theorem clearBorderOf_SameAt (g : Graph) (v : Vertex) (i : Int)
    (hne : i ≠ v.prescinct_id) : SameAt g (clearBorderOf g v) i := by
  unfold clearBorderOf
  cases hdg : dget g.district_id_on_border_of_vertex v.prescinct_id with
  | none => exact SameAt_refl g i
  | some s =>
    show SameAt g (s.foldl (clearStep v.prescinct_id v.district_id) g) i
    exact foldl_SameAt _ i s
      (fun g' d _ => clearStep_SameAt v.prescinct_id v.district_id g' d i hne) g

theorem processVertex_SameAt (g : Graph) (v : Vertex) (i : Int)
    (hne : i ≠ v.prescinct_id) : SameAt g (processVertex g v) i :=
  SameAt_trans (clearBorderOf_SameAt g v i hne)
    (recomputeBorderOf_SameAt _ v i hne)

theorem moveBody_SameAt (g : Graph) (pid nd i : Int) (hne : i ≠ pid)
    (hnadj : i ∉ (getV g.vertices pid).adj_vertices) :
    SameAt g (moveBody g pid nd) i := by
  have hstep : SameAt g
      { g with vertices := setDistrict g.vertices pid nd,
               state := dinsert g.state pid nd } i := by
    refine ⟨fun d => rfl, rfl, ?_⟩
    show dget (dinsert g.state pid nd) i = dget g.state i
    rw [dget_dinsert, if_neg hne]
  refine SameAt_trans hstep ?_
  unfold moveBody
  apply foldl_SameAt
  intro g'' v' hv'
  apply processVertex_SameAt
  rcases List.mem_append.mp hv' with hmem | hmem
  · obtain ⟨aid, haid, rfl⟩ := List.mem_map.mp hmem
    rw [getV_id]
    intro he
    apply hnadj
    rw [he]
    rwa [getV_setDistrict_adj] at haid
  · rw [List.mem_singleton.mp hmem, getV_id]
    exact hne

/-! ### Inversion of `change_vertex_district` -/

theorem change_ok_inv (g : Graph) (pid nd : Int) (g' : Graph)
    (h : change_vertex_district g pid nd = Except.ok g') :
    ∃ v, dgetV g.vertices pid = some v ∧ nd ≠ v.district_id ∧
      dget g.vertex_on_border (pid, nd) ≠ none ∧ g' = moveBody g pid nd := by
  unfold change_vertex_district at h
  cases hv : dgetV g.vertices pid with
  | none => rw [hv] at h; cases h
  | some v =>
    rw [hv] at h
    replace h : (if nd = v.district_id then Except.error MoveError.invalidMove
        else if (dget g.vertex_on_border (pid, nd)).isNone = true then
          Except.error MoveError.invalidMove
        else Except.ok (moveBody g pid nd)) = Except.ok g' := h
    by_cases h1 : nd = v.district_id
    · rw [if_pos h1] at h; cases h
    · rw [if_neg h1] at h
      by_cases h2 : (dget g.vertex_on_border (pid, nd)).isNone = true
      · rw [if_pos h2] at h; cases h
      · rw [if_neg h2] at h
        refine ⟨v, rfl, h1, ?_, (Except.ok.inj h).symm⟩
        intro hn
        apply h2
        rw [hn]
        rfl

theorem change_ok_of (g : Graph) (pid nd : Int) (v : Vertex)
    (hv : dgetV g.vertices pid = some v) (h1 : nd ≠ v.district_id)
    (h2 : dget g.vertex_on_border (pid, nd) ≠ none) :
    change_vertex_district g pid nd = Except.ok (moveBody g pid nd) := by
  unfold change_vertex_district
  rw [hv]
  show (if nd = v.district_id then Except.error MoveError.invalidMove
      else if (dget g.vertex_on_border (pid, nd)).isNone = true then
        Except.error MoveError.invalidMove
      else Except.ok (moveBody g pid nd)) = Except.ok (moveBody g pid nd)
  rw [if_neg h1]
  have h2' : ¬((dget g.vertex_on_border (pid, nd)).isNone = true) := by
    intro hh
    exact h2 (Option.isNone_iff_eq_none.mp hh)
  rw [if_neg h2']

theorem change_error_invalid_iff (g : Graph) (pid nd : Int) (v : Vertex)
    (hv : dgetV g.vertices pid = some v) :
    change_vertex_district g pid nd = Except.error MoveError.invalidMove ↔
      (nd = v.district_id ∨ dget g.vertex_on_border (pid, nd) = none) := by
  unfold change_vertex_district
  rw [hv]
  show (if nd = v.district_id then Except.error MoveError.invalidMove
      else if (dget g.vertex_on_border (pid, nd)).isNone = true then
        Except.error MoveError.invalidMove
      else Except.ok (moveBody g pid nd)) = Except.error MoveError.invalidMove ↔ _
  by_cases h1 : nd = v.district_id
  · rw [if_pos h1]
    exact ⟨fun _ => Or.inl h1, fun _ => rfl⟩
  · rw [if_neg h1]
    by_cases h2 : (dget g.vertex_on_border (pid, nd)).isNone = true
    · rw [if_pos h2]
      exact ⟨fun _ => Or.inr (Option.isNone_iff_eq_none.mp h2), fun _ => rfl⟩
    · rw [if_neg h2]
      have h2' : ¬(dget g.vertex_on_border (pid, nd) = none) := by
        intro hn
        apply h2
        rw [hn]
        rfl
      constructor
      · intro h
        cases h
      · rintro (h | h)
        · exact absurd h h1
        · exact absurd h h2'

/-! ### Claim theorems: error handling and locality -/

/-- C3: for a vertex id present in the graph, `change_vertex_district` fails
with `InvalidMove` (Python: `ValueError`) iff the requested district equals
the vertex's current district or the pair `(vertex_id, new_partition_id)` is
not a key of the border index; otherwise it succeeds.  Both checks precede
every write in the source, so in the failure cases the graph value is
untouched (the functional embedding returns only the error). -/
theorem change_invalidMove_characterization (g : Graph) (pid nd : Int) (v : Vertex)
    (hv : dgetV g.vertices pid = some v) :
    (change_vertex_district g pid nd = Except.error MoveError.invalidMove ↔
      (nd = v.district_id ∨ dget g.vertex_on_border (pid, nd) = none)) ∧
    (¬(nd = v.district_id ∨ dget g.vertex_on_border (pid, nd) = none) →
      ∃ g', change_vertex_district g pid nd = Except.ok g') := by
  refine ⟨change_error_invalid_iff g pid nd v hv, ?_⟩
  intro h
  push_neg at h
  exact ⟨moveBody g pid nd, change_ok_of g pid nd v hv h.1 h.2⟩

/-- C3 witness: in the discovered scenario graph, moving vertex 2 to its own
district 1 fails with `InvalidMove`. -/
theorem change_invalidMove_characterization_witness :
    change_vertex_district scenarioDiscovered 2 1 = Except.error MoveError.invalidMove := by
  have h := change_invalidMove_characterization scenarioDiscovered 2 1
    ⟨2, 1, [1, 3]⟩ (by decide)
  exact h.1.mpr (Or.inl rfl)

/-- C10: calling `change_vertex_district` with a vertex id that is not a key
of the vertices dict fails with `KeyError` (not `InvalidMove`) from the very
first lookup, before any validation or mutation. -/
theorem change_keyError_on_unknown_id (g : Graph) (pid nd : Int)
    (h : dgetV g.vertices pid = none) :
    change_vertex_district g pid nd = Except.error MoveError.keyError := by
  unfold change_vertex_district
  rw [h]

/-- C10 witness: id 99 is not in the scenario graph; the call raises
`KeyError`. -/
theorem change_keyError_on_unknown_id_witness :
    change_vertex_district scenarioDiscovered 99 2 = Except.error MoveError.keyError :=
  change_keyError_on_unknown_id scenarioDiscovered 99 2 (by decide)

/-- C4: after a successful move, every vertex id other than the moved vertex
and its direct neighbors keeps exactly the same border-partition set binding
and exactly the same border-index entries (same keys, same descriptors). -/
theorem change_locality (g : Graph) (pid nd : Int) (g' : Graph)
    (hok : change_vertex_district g pid nd = Except.ok g') :
    ∀ i, i ≠ pid → i ∉ (getV g.vertices pid).adj_vertices →
      dget g'.district_id_on_border_of_vertex i = dget g.district_id_on_border_of_vertex i ∧
      (∀ d, dget g'.vertex_on_border (i, d) = dget g.vertex_on_border (i, d)) := by
  obtain ⟨v, hv, h1, h2, hg'⟩ := change_ok_inv g pid nd g' hok
  intro i hne hnadj
  have hs := moveBody_SameAt g pid nd i hne hnadj
  rw [hg']
  exact ⟨hs.2.1, hs.1⟩

/-- C4 witness: vertex 4 is neither vertex 2 nor one of its neighbors, and
its border data is untouched by the scenario move. -/
theorem change_locality_witness :
    dget scenarioMoved.district_id_on_border_of_vertex 4 =
      dget scenarioDiscovered.district_id_on_border_of_vertex 4 ∧
    dget scenarioMoved.vertex_on_border (4, 1) =
      dget scenarioDiscovered.vertex_on_border (4, 1) := by
  have h := change_locality scenarioDiscovered 2 2 scenarioMoved (by rfl)
    4 (by decide) (by decide)
  exact ⟨h.1, h.2 1⟩

/-- C5: the spec's concrete scenario.  Discovery on the path graph
`1-2-3-4` with districts `[1, 1, 2, 2]` yields border entries exactly for
`(2, 2)` and `(3, 1)`; moving vertex 2 to district 2 succeeds, after which
vertex 1 borders exactly district 2, vertex 2 borders exactly district 1,
and vertices 3 and 4 have no border-index entries. -/
theorem scenario_functional_correctness :
    ((dget scenarioDiscovered.vertex_on_border (2, 2)).isSome = true ∧
     (dget scenarioDiscovered.vertex_on_border (3, 1)).isSome = true ∧
     (∀ p ∈ scenarioDiscovered.vertex_on_border, p.1 = (2, 2) ∨ p.1 = (3, 1))) ∧
    change_vertex_district scenarioDiscovered 2 2 = Except.ok scenarioMoved ∧
    (dget scenarioMoved.district_id_on_border_of_vertex 1 = some [2] ∧
     (dget scenarioMoved.vertex_on_border (1, 2)).isSome = true ∧
     dget scenarioMoved.district_id_on_border_of_vertex 2 = some [1] ∧
     (dget scenarioMoved.vertex_on_border (2, 1)).isSome = true ∧
     (∀ p ∈ scenarioMoved.vertex_on_border, p.1 = (1, 2) ∨ p.1 = (2, 1)) ∧
     setDOf scenarioMoved 3 = [] ∧
     setDOf scenarioMoved 4 = []) :=
  ⟨by decide, by rfl, by decide⟩

/-- C2 counterexample: after the (successfully completed) scenario move,
vertex 3 no longer has any neighbor in a foreign district, yet it is still a
key of `district_id_on_border_of_vertex`, mapped to the empty set — the code
empties the set but never deletes the key. -/
theorem scenario_vertex3_empty_set_key :
    dget scenarioMoved.district_id_on_border_of_vertex 3 = some [] ∧
    ∀ aid ∈ (getV scenarioMoved.vertices 3).adj_vertices,
      (getV scenarioMoved.vertices aid).district_id =
        (getV scenarioMoved.vertices 3).district_id := by
  decide

/-- C6 counterexample: construction from two rows sharing id 1 raises no
error; it silently keeps only the later row's vertex, producing the same
graph as if the first row had never existed. -/
theorem graph_from_json_duplicate_id_silent :
    (graph_from_json [(1, 5, []), (1, 7, [])]).vertices = [⟨1, 7, []⟩] ∧
    graph_from_json [(1, 5, []), (1, 7, [])] = graph_from_json [(1, 7, [])] := by
  decide

theorem lastRowWith_foldl (rows : List (Int × Int × List Int)) :
    ∀ (acc : List Vertex) (i : Int),
      dgetV (rows.foldl (fun a r => vinsert a (mkVertex r)) acc) i =
        match lastRowWith rows i with
        | some r => some (mkVertex r)
        | none => dgetV acc i := by
  induction rows with
  | nil => intro acc i; rfl
  | cons r t ih =>
    intro acc i
    rw [List.foldl_cons, ih]
    cases hl : lastRowWith t i with
    | some r' => simp [lastRowWith, hl]
    | none =>
      simp only [lastRowWith, hl]
      rw [vinsert_dgetV]
      by_cases hr : r.1 = i
      · simp [mkVertex, hr]
      · simp [mkVertex, hr]

/-- C6 amended: `graph_from_json` performs no duplicate-id check and never
fails; when several rows share an id the last one wins — the vertex stored
under id `i` is exactly the one built from the last row whose id is `i`. -/
theorem graph_from_json_keeps_last_row (rows : List (Int × Int × List Int)) (i : Int) :
    dgetV (graph_from_json rows).vertices i = (lastRowWith rows i).map mkVertex := by
  show dgetV (rows.foldl (fun a r => vinsert a (mkVertex r)) []) i = _
  rw [lastRowWith_foldl]
  cases lastRowWith rows i <;> rfl

/-! ### Exact effect of the border re-scan loop on the scanned vertex's data -/

theorem getV_eq_of_dgetV (vs : List Vertex) (i : Int) (v : Vertex)
    (h : dgetV vs i = some v) : getV vs i = v := by
  unfold getV
  rw [h]
  rfl

theorem isBorderV_iff (vs : List Vertex) (v : Vertex) :
    isBorderV vs v ↔ ∃ d, bordersD vs v d := by
  constructor
  · rintro ⟨aid, ha, hne⟩
    exact ⟨(getV vs aid).district_id, hne, ⟨aid, ha, rfl⟩⟩
  · rintro ⟨d, hd, aid, ha, hda⟩
    exact ⟨aid, ha, hda ▸ hd⟩

theorem GoodV_congr (h h' : Graph) (v : Vertex) (hverts : h'.vertices = h.vertices)
    (hs : SameAt h h' v.prescinct_id) (hg : GoodV h v) : GoodV h' v := by
  obtain ⟨ha, hb, hc⟩ := hg
  refine ⟨fun d => ?_, fun d => ?_, ?_⟩
  · rw [hs.1 d, hverts]
    exact ha d
  · unfold setDOf
    rw [hs.2.1, hverts]
    exact hb d
  · rw [hs.2.2, hverts]
    exact hc

theorem rebuild_fold_spec (v : Vertex) (vs : List Vertex) :
    ∀ (t : List Int) (h : Graph), h.vertices = vs →
      (t.foldl (rebuildStep v) h).vertices = vs ∧
      (∀ d, dget (t.foldl (rebuildStep v) h).vertex_on_border (v.prescinct_id, d) =
         if d ≠ v.district_id ∧ ∃ aid ∈ t, (getV vs aid).district_id = d
         then some (v.prescinct_id, v.district_id, d)
         else dget h.vertex_on_border (v.prescinct_id, d)) ∧
      (∀ d, d ∈ setDOf (t.foldl (rebuildStep v) h) v.prescinct_id ↔
         d ∈ setDOf h v.prescinct_id ∨
           (d ≠ v.district_id ∧ ∃ aid ∈ t, (getV vs aid).district_id = d)) ∧
      (dget (t.foldl (rebuildStep v) h).state v.prescinct_id =
         if ∃ aid ∈ t, (getV vs aid).district_id ≠ v.district_id
         then some (-v.district_id)
         else dget h.state v.prescinct_id) := by
  intro t
  induction t with
  | nil =>
    intro h hverts
    refine ⟨hverts, fun d => ?_, fun d => ?_, ?_⟩
    · simp
    · simp
    · simp
  | cons aid t' ih =>
    intro h hverts
    rw [List.foldl_cons]
    by_cases hd : v.district_id ≠ (getV vs aid).district_id
    · -- the neighbor is in a different district: a border fact is recorded
      have hstep : rebuildStep v h aid = update_border h v (getV vs aid) := by
        show (if v.district_id ≠ (getV h.vertices aid).district_id
            then update_border h v (getV h.vertices aid) else h) = _
        rw [hverts, if_pos hd]
      rw [hstep]
      have hverts' : (update_border h v (getV vs aid)).vertices = vs := hverts
      obtain ⟨ihv, ih2, ih3, ih4⟩ := ih (update_border h v (getV vs aid)) hverts'
      have f1 : ∀ d, dget (update_border h v (getV vs aid)).vertex_on_border (v.prescinct_id, d)
          = if d = (getV vs aid).district_id
            then some (v.prescinct_id, v.district_id, (getV vs aid).district_id)
            else dget h.vertex_on_border (v.prescinct_id, d) := by
        intro d
        show dget (dinsert h.vertex_on_border (v.prescinct_id, (getV vs aid).district_id)
          (v.prescinct_id, v.district_id, (getV vs aid).district_id)) (v.prescinct_id, d) = _
        rw [dget_dinsert]
        by_cases hda : d = (getV vs aid).district_id
        · subst hda
          simp
        · rw [if_neg (by intro hp; exact hda (congrArg Prod.snd hp)), if_neg hda]
      have f2 : setDOf (update_border h v (getV vs aid)) v.prescinct_id
          = sadd (setDOf h v.prescinct_id) (getV vs aid).district_id := by
        unfold setDOf
        show (dget (dinsert h.district_id_on_border_of_vertex v.prescinct_id
          (sadd ((dget h.district_id_on_border_of_vertex v.prescinct_id).getD [])
            (getV vs aid).district_id)) v.prescinct_id).getD [] = _
        rw [dget_dinsert, if_pos rfl]
        rfl
      have f3 : dget (update_border h v (getV vs aid)).state v.prescinct_id
          = some (-v.district_id) := by
        show dget (dinsert h.state v.prescinct_id (-v.district_id)) v.prescinct_id = _
        rw [dget_dinsert, if_pos rfl]
      refine ⟨ihv, fun d => ?_, fun d => ?_, ?_⟩
      · -- border index at (v, d)
        rw [ih2 d]
        by_cases hc1 : d ≠ v.district_id ∧ ∃ a ∈ t', (getV vs a).district_id = d
        · have hwide : d ≠ v.district_id ∧ ∃ a ∈ aid :: t', (getV vs a).district_id = d := by
            obtain ⟨a, hm, hgv⟩ := hc1.2
            exact ⟨hc1.1, a, List.mem_cons_of_mem _ hm, hgv⟩
          rw [if_pos hc1, if_pos hwide]
        · rw [if_neg hc1, f1 d]
          by_cases hda : d = (getV vs aid).district_id
          · have hdv : d ≠ v.district_id := by
              rw [hda]
              exact Ne.symm hd
            rw [if_pos hda, if_pos ⟨hdv, ⟨aid, List.mem_cons_self _ _, hda.symm⟩⟩, hda]
          · rw [if_neg hda, if_neg ?_]
            rintro ⟨hdv, a, hm, hgv⟩
            rcases List.mem_cons.mp hm with rfl | hm'
            · exact hda hgv.symm
            · exact hc1 ⟨hdv, a, hm', hgv⟩
      · -- bordering set membership
        rw [ih3 d, f2, mem_sadd]
        constructor
        · rintro ((hm | hm) | ⟨hdv, a, hmem, hgv⟩)
          · exact Or.inl hm
          · refine Or.inr ⟨?_, ⟨aid, List.mem_cons_self _ _, hm.symm⟩⟩
            rw [hm]
            exact Ne.symm hd
          · exact Or.inr ⟨hdv, a, List.mem_cons_of_mem _ hmem, hgv⟩
        · rintro (hm | ⟨hdv, a, hmem, hgv⟩)
          · exact Or.inl (Or.inl hm)
          · rcases List.mem_cons.mp hmem with rfl | hm'
            · exact Or.inl (Or.inr hgv.symm)
            · exact Or.inr ⟨hdv, a, hm', hgv⟩
      · -- state entry
        rw [if_pos ⟨aid, List.mem_cons_self _ _, Ne.symm hd⟩, ih4]
        by_cases hex : ∃ a ∈ t', (getV vs a).district_id ≠ v.district_id
        · rw [if_pos hex]
        · rw [if_neg hex, f3]
    · -- same district: the step is a no-op
      have hstep : rebuildStep v h aid = h := by
        show (if v.district_id ≠ (getV h.vertices aid).district_id
            then update_border h v (getV h.vertices aid) else h) = _
        rw [hverts, if_neg hd]
      rw [hstep]
      push_neg at hd
      obtain ⟨ihv, ih2, ih3, ih4⟩ := ih h hverts
      refine ⟨ihv, fun d => ?_, fun d => ?_, ?_⟩
      · rw [ih2 d]
        refine if_congr ?_ rfl rfl
        constructor
        · rintro ⟨hdv, a, hm, hgv⟩
          exact ⟨hdv, a, List.mem_cons_of_mem _ hm, hgv⟩
        · rintro ⟨hdv, a, hm, hgv⟩
          rcases List.mem_cons.mp hm with rfl | hm'
          · exact absurd (hd.trans hgv).symm hdv
          · exact ⟨hdv, a, hm', hgv⟩
      · rw [ih3 d]
        constructor
        · rintro (hm | ⟨hdv, a, hm, hgv⟩)
          · exact Or.inl hm
          · exact Or.inr ⟨hdv, a, List.mem_cons_of_mem _ hm, hgv⟩
        · rintro (hm | ⟨hdv, a, hm, hgv⟩)
          · exact Or.inl hm
          · rcases List.mem_cons.mp hm with rfl | hm'
            · exact absurd (hd.trans hgv).symm hdv
            · exact Or.inr ⟨hdv, a, hm', hgv⟩
      · rw [ih4]
        refine if_congr ?_ rfl rfl
        constructor
        · rintro ⟨a, hm, hgv⟩
          exact ⟨a, List.mem_cons_of_mem _ hm, hgv⟩
        · rintro ⟨a, hm, hgv⟩
          rcases List.mem_cons.mp hm with rfl | hm'
          · exact absurd hd.symm hgv
          · exact ⟨a, hm', hgv⟩

theorem recompute_GoodV (h : Graph) (v : Vertex) (vs : List Vertex)
    (hverts : h.vertices = vs)
    (hb : ∀ d, ¬ bordersD vs v d → dget h.vertex_on_border (v.prescinct_id, d) = none)
    (hbs : ∀ d, d ∈ setDOf h v.prescinct_id → bordersD vs v d)
    (hst : ¬ isBorderV vs v → dget h.state v.prescinct_id = some v.district_id) :
    GoodV (recomputeBorderOf h v) v := by
  obtain ⟨hv1, hv2, hv3, hv4⟩ := rebuild_fold_spec v vs v.adj_vertices h hverts
  have hrv : (recomputeBorderOf h v).vertices = vs := by
    rw [recomputeBorderOf_vertices]
    exact hverts
  refine ⟨fun d => ?_, fun d => ?_, ?_⟩
  · rw [hrv]
    show dget (v.adj_vertices.foldl (rebuildStep v) h).vertex_on_border (v.prescinct_id, d) = _
    by_cases hbd : bordersD vs v d
    · have hbd' : d ≠ v.district_id ∧ ∃ aid ∈ v.adj_vertices, (getV vs aid).district_id = d := hbd
      rw [hv2 d, if_pos hbd', if_pos hbd]
    · have hbd' : ¬(d ≠ v.district_id ∧ ∃ aid ∈ v.adj_vertices, (getV vs aid).district_id = d) := hbd
      rw [hv2 d, if_neg hbd', if_neg hbd]
      exact hb d hbd
  · rw [hrv]
    show d ∈ setDOf (v.adj_vertices.foldl (rebuildStep v) h) v.prescinct_id ↔ _
    rw [hv3 d]
    constructor
    · rintro (hm | hc)
      · exact hbs d hm
      · exact hc
    · intro hbd
      exact Or.inr hbd
  · rw [hrv]
    show dget (v.adj_vertices.foldl (rebuildStep v) h).state v.prescinct_id = _
    by_cases hib : isBorderV vs v
    · have hib' : ∃ aid ∈ v.adj_vertices, (getV vs aid).district_id ≠ v.district_id := hib
      rw [hv4, if_pos hib', if_pos hib]
    · have hib' : ¬∃ aid ∈ v.adj_vertices, (getV vs aid).district_id ≠ v.district_id := hib
      rw [hv4, if_neg hib', if_neg hib]
      exact hst hib

/-! ### Exact effect of the clearing loop -/

theorem foldl_sremove_mem : ∀ (t s0 : List Int) (x : Int),
    x ∈ t.foldl sremove s0 ↔ x ∈ s0 ∧ x ∉ t := by
  intro t
  induction t with
  | nil =>
    intro s0 x
    simp
  | cons d t' ih =>
    intro s0 x
    rw [List.foldl_cons, ih, mem_sremove]
    constructor
    · rintro ⟨⟨hx, hxd⟩, hxt⟩
      refine ⟨hx, ?_⟩
      intro hm
      rcases List.mem_cons.mp hm with h' | h'
      · exact hxd h'
      · exact hxt h'
    · rintro ⟨hx, hxc⟩
      rw [List.mem_cons] at hxc
      push_neg at hxc
      exact ⟨⟨hx, hxc.1⟩, hxc.2⟩

theorem clear_fold_spec (i dist : Int) :
    ∀ (t : List Int) (h : Graph) (s0 : List Int),
      dget h.district_id_on_border_of_vertex i = some s0 →
      (t.foldl (clearStep i dist) h).vertices = h.vertices ∧
      (∀ d, dget (t.foldl (clearStep i dist) h).vertex_on_border (i, d) =
         if d ∈ t then none else dget h.vertex_on_border (i, d)) ∧
      dget (t.foldl (clearStep i dist) h).district_id_on_border_of_vertex i
        = some (t.foldl sremove s0) ∧
      (dget (t.foldl (clearStep i dist) h).state i =
         if t = [] then dget h.state i else some dist) := by
  intro t
  induction t with
  | nil =>
    intro h s0 hdict
    refine ⟨rfl, fun d => by simp, by simpa using hdict, by simp⟩
  | cons d0 t' ih =>
    intro h s0 hdict
    rw [List.foldl_cons]
    have e2 : ∀ d, dget (clearStep i dist h d0).vertex_on_border (i, d)
        = if d = d0 then none else dget h.vertex_on_border (i, d) := by
      intro d
      show dget (dpop h.vertex_on_border (i, d0)) (i, d) = _
      rw [dget_dpop]
      by_cases hdd : d = d0
      · subst hdd
        simp
      · rw [if_neg (fun hp => hdd (congrArg Prod.snd hp)), if_neg hdd]
    have e3 : dget (clearStep i dist h d0).district_id_on_border_of_vertex i
        = some (sremove s0 d0) := by
      show dget (dinsert h.district_id_on_border_of_vertex i
        (sremove ((dget h.district_id_on_border_of_vertex i).getD []) d0)) i = _
      rw [dget_dinsert, if_pos rfl, hdict]
      rfl
    have e4 : dget (clearStep i dist h d0).state i = some dist := by
      show dget (dinsert h.state i dist) i = _
      rw [dget_dinsert, if_pos rfl]
    obtain ⟨ih1, ih2, ih3, ih4⟩ := ih (clearStep i dist h d0) (sremove s0 d0) e3
    refine ⟨ih1.trans rfl, fun d => ?_, ih3, ?_⟩
    · rw [ih2 d]
      by_cases hdt : d ∈ t'
      · rw [if_pos hdt, if_pos (List.mem_cons_of_mem _ hdt)]
      · rw [if_neg hdt, e2 d]
        by_cases hdd : d = d0
        · rw [if_pos hdd, if_pos (by rw [hdd]; exact List.mem_cons_self _ _)]
        · rw [if_neg hdd, if_neg ?_]
          intro hm
          rcases List.mem_cons.mp hm with h' | h'
          · exact hdd h'
          · exact hdt h'
    · rw [ih4, if_neg (List.cons_ne_nil d0 t')]
      by_cases ht : t' = []
      · rw [if_pos ht, e4]
      · rw [if_neg ht]

theorem clearBorderOf_spec (h : Graph) (v : Vertex) :
    (clearBorderOf h v).vertices = h.vertices ∧
    (∀ d, dget (clearBorderOf h v).vertex_on_border (v.prescinct_id, d) =
       if d ∈ setDOf h v.prescinct_id then none
       else dget h.vertex_on_border (v.prescinct_id, d)) ∧
    setDOf (clearBorderOf h v) v.prescinct_id = [] ∧
    (dget (clearBorderOf h v).state v.prescinct_id =
       if setDOf h v.prescinct_id = [] then dget h.state v.prescinct_id
       else some v.district_id) := by
  cases hdict : dget h.district_id_on_border_of_vertex v.prescinct_id with
  | none =>
    have hcb : clearBorderOf h v = h := by
      unfold clearBorderOf
      rw [hdict]
    have hs : setDOf h v.prescinct_id = [] := by
      unfold setDOf
      rw [hdict]
      rfl
    refine ⟨by rw [hcb], fun d => ?_, ?_, ?_⟩
    · rw [hcb, hs]
      simp
    · rw [hcb, hs]
    · rw [hcb, if_pos hs]
  | some s =>
    have hcb : clearBorderOf h v = s.foldl (clearStep v.prescinct_id v.district_id) h := by
      unfold clearBorderOf
      rw [hdict]
    have hs : setDOf h v.prescinct_id = s := by
      unfold setDOf
      rw [hdict]
      rfl
    obtain ⟨c1, c2, c3, c4⟩ :=
      clear_fold_spec v.prescinct_id v.district_id s h s hdict
    refine ⟨by rw [hcb]; exact c1, fun d => ?_, ?_, ?_⟩
    · rw [hcb, c2 d, hs]
    · have hnil : s.foldl sremove s = [] := by
        apply List.eq_nil_iff_forall_not_mem.mpr
        intro x hx
        obtain ⟨hx1, hx2⟩ := (foldl_sremove_mem s s x).mp hx
        exact hx2 hx1
      unfold setDOf
      rw [hcb, c3, hnil]
      rfl
    · rw [hcb, c4, hs]

theorem processVertex_GoodV (h : Graph) (v : Vertex) (vs : List Vertex)
    (hverts : h.vertices = vs)
    (hlock : ∀ d, d ∉ setDOf h v.prescinct_id →
       dget h.vertex_on_border (v.prescinct_id, d) = none)
    (hstate : setDOf h v.prescinct_id = [] → ¬ isBorderV vs v →
       dget h.state v.prescinct_id = some v.district_id) :
    GoodV (processVertex h v) v := by
  obtain ⟨c1, c2, c3, c4⟩ := clearBorderOf_spec h v
  apply recompute_GoodV (clearBorderOf h v) v vs (c1.trans hverts)
  · intro d _
    rw [c2 d]
    by_cases hm : d ∈ setDOf h v.prescinct_id
    · rw [if_pos hm]
    · rw [if_neg hm]
      exact hlock d hm
  · intro d hm
    rw [c3] at hm
    simp at hm
  · intro hnb
    rw [c4]
    by_cases hse : setDOf h v.prescinct_id = []
    · rw [if_pos hse]
      exact hstate hse hnb
    · rw [if_neg hse]

theorem processVertex_GoodV_again (h : Graph) (v : Vertex) (vs : List Vertex)
    (hverts : h.vertices = vs) (hg : GoodV h v) : GoodV (processVertex h v) v := by
  obtain ⟨ha, hb, hc⟩ := hg
  apply processVertex_GoodV h v vs hverts
  · intro d hm
    rw [ha d, if_neg ?_]
    intro hbd
    exact hm ((hb d).mpr hbd)
  · intro _ hnb
    rw [hc, if_neg ?_]
    rw [hverts]
    exact hnb

/-! ### Discovery establishes the border invariant -/

theorem eq_of_mem_ids (vs : List Vertex)
    (hnodup : (vs.map (fun v => v.prescinct_id)).Nodup) (a b : Vertex)
    (ha : a ∈ vs) (hb : b ∈ vs) (hid : a.prescinct_id = b.prescinct_id) : a = b := by
  have h1 := mem_dgetV vs a hnodup ha
  have h2 := mem_dgetV vs b hnodup hb
  rw [hid, h2] at h1
  exact (Option.some.inj h1).symm

theorem recompute_GoodV_again (h : Graph) (v : Vertex) (vs : List Vertex)
    (hverts : h.vertices = vs) (hg : GoodV h v) : GoodV (recomputeBorderOf h v) v := by
  obtain ⟨ha, hb, hc⟩ := hg
  apply recompute_GoodV h v vs hverts
  · intro d hnb
    rw [ha d, if_neg ?_]
    rw [hverts]
    exact hnb
  · intro d hm
    have := (hb d).mp hm
    rw [hverts] at this
    exact this
  · intro hnb
    rw [hc, if_neg ?_]
    rw [hverts]
    exact hnb

theorem FreshAt_transfer (h h' : Graph) (i : Int)
    (hverts : h'.vertices = h.vertices) (hs : SameAt h h' i)
    (hf : FreshAt h i) : FreshAt h' i := by
  obtain ⟨f1, f2, f3⟩ := hf
  refine ⟨fun d => ?_, ?_, ?_⟩
  · rw [hs.1 d]
    exact f1 d
  · rw [hs.2.1]
    exact f2
  · rw [hs.2.2, hverts]
    exact f3

theorem discover_aux (vs : List Vertex)
    (hnodup : (vs.map (fun v => v.prescinct_id)).Nodup) :
    ∀ (R : List Vertex) (h : Graph), h.vertices = vs →
      (R.map (fun v => v.prescinct_id)).Nodup →
      (∀ v' ∈ R, v' ∈ vs) →
      (∀ v' ∈ R, FreshAt h v'.prescinct_id ∨ GoodV h v') →
      (∀ v' ∈ R, GoodV (R.foldl recomputeBorderOf h) v') ∧
      (∀ v'' ∈ vs, GoodV h v'' → GoodV (R.foldl recomputeBorderOf h) v'') := by
  intro R
  induction R with
  | nil =>
    intro h _ _ _ _
    exact ⟨fun v' hv' => absurd hv' (List.not_mem_nil v'), fun v'' _ hg => hg⟩
  | cons v0 R' ih =>
    intro h hverts hRnodup hRmem hstat
    rw [List.foldl_cons]
    have hv0vs : v0 ∈ vs := hRmem v0 (List.mem_cons_self _ _)
    have hverts1 : (recomputeBorderOf h v0).vertices = vs := by
      rw [recomputeBorderOf_vertices]
      exact hverts
    -- processing v0 establishes its border data, from fresh or already-good state
    have hgood0 : GoodV (recomputeBorderOf h v0) v0 := by
      rcases hstat v0 (List.mem_cons_self _ _) with hf | hg
      · apply recompute_GoodV h v0 vs hverts
        · intro d _
          exact hf.1 d
        · intro d hm
          unfold setDOf at hm
          rw [hf.2.1] at hm
          simp at hm
        · intro _
          have := hf.2.2
          rw [hverts, getV_of_mem vs v0 hnodup hv0vs] at this
          exact this
      · exact recompute_GoodV_again h v0 vs hverts hg
    simp only [List.map_cons, List.nodup_cons] at hRnodup
    -- statuses survive the processing of v0 (its writes are keyed by v0's id)
    have hstat1 : ∀ v' ∈ R', FreshAt (recomputeBorderOf h v0) v'.prescinct_id ∨
        GoodV (recomputeBorderOf h v0) v' := by
      intro v' hv'
      have hne : v'.prescinct_id ≠ v0.prescinct_id := by
        intro he
        exact hRnodup.1 (he ▸ List.mem_map_of_mem (fun w => w.prescinct_id) hv')
      have hsame := recomputeBorderOf_SameAt h v0 v'.prescinct_id hne
      rcases hstat v' (List.mem_cons_of_mem _ hv') with hf | hg
      · exact Or.inl (FreshAt_transfer h _ _ (hverts1.trans hverts.symm) hsame hf)
      · exact Or.inr (GoodV_congr h _ v' (hverts1.trans hverts.symm) hsame hg)
    obtain ⟨ih1, ih2⟩ := ih (recomputeBorderOf h v0) hverts1 hRnodup.2
      (fun v' hv' => hRmem v' (List.mem_cons_of_mem _ hv')) hstat1
    constructor
    · intro v' hv'
      rcases List.mem_cons.mp hv' with rfl | hm
      · exact ih2 v' hv0vs hgood0
      · exact ih1 v' hm
    · intro v'' hv'' hg
      by_cases hid : v''.prescinct_id = v0.prescinct_id
      · have : v'' = v0 := eq_of_mem_ids vs hnodup v'' v0 hv'' hv0vs hid
        subst this
        exact ih2 v'' hv'' hgood0
      · exact ih2 v'' hv''
          (GoodV_congr h _ v'' (hverts1.trans hverts.symm)
            (recomputeBorderOf_SameAt h v0 v''.prescinct_id hid) hg)

theorem WF_congr (g h : Graph) (hv : h.vertices = g.vertices) (hwf : WF g) : WF h := by
  unfold WF at hwf ⊢
  rw [hv]
  exact hwf

theorem get_border_vertices_establishes (g : Graph) (hwf : WF g) (hfresh : Fresh g) :
    BorderInv (get_border_vertices g) ∧ (get_border_vertices g).vertices = g.vertices := by
  have hnodup := hwf.1
  have hstat : ∀ v' ∈ g.vertices, FreshAt g v'.prescinct_id ∨ GoodV g v' := by
    intro v' hv'
    refine Or.inl ⟨fun d => ?_, ?_, ?_⟩
    · rw [hfresh.1]
      rfl
    · rw [hfresh.2.1]
      rfl
    · rw [getV_of_mem g.vertices v' hnodup hv']
      exact hfresh.2.2 v' hv'
  obtain ⟨h1, _⟩ := discover_aux g.vertices hnodup g.vertices g rfl hnodup
    (fun v' hv' => hv') hstat
  have hgv : (get_border_vertices g).vertices = g.vertices := by
    unfold get_border_vertices
    exact foldl_vertices recomputeBorderOf recomputeBorderOf_vertices g.vertices g
  refine ⟨?_, hgv⟩
  intro v hv
  rw [hgv] at hv
  exact h1 v hv

/-! ### The clear-and-rebuild loop of a move restores the invariant -/

theorem processFold_aux (g1 : Graph) :
    ∀ (L : List Vertex) (h : Graph), h.vertices = g1.vertices →
      (∀ v' ∈ L, v' = getV g1.vertices v'.prescinct_id ∧
         (∀ d, d ∉ setDOf g1 v'.prescinct_id →
            dget g1.vertex_on_border (v'.prescinct_id, d) = none) ∧
         (setDOf g1 v'.prescinct_id = [] → ¬ isBorderV g1.vertices v' →
            dget g1.state v'.prescinct_id = some v'.district_id)) →
      (∀ v' ∈ L, SameAt g1 h v'.prescinct_id ∨ GoodV h v') →
      (L.foldl processVertex h).vertices = g1.vertices ∧
      (∀ v'', GoodV h v'' → v'' = getV g1.vertices v''.prescinct_id →
         GoodV (L.foldl processVertex h) v'') ∧
      (∀ v' ∈ L, GoodV (L.foldl processVertex h) v') := by
  intro L
  induction L with
  | nil =>
    intro h hverts _ _
    exact ⟨hverts, fun v'' hg _ => hg, fun v' hv' => absurd hv' (List.not_mem_nil v')⟩
  | cons v0 L' ih =>
    intro h hverts hpre hstat
    rw [List.foldl_cons]
    obtain ⟨hcan0, hA0, hB0⟩ := hpre v0 (List.mem_cons_self _ _)
    have h1verts : (processVertex h v0).vertices = g1.vertices := by
      rw [processVertex_vertices]
      exact hverts
    -- processing v0 makes its border data good, whether it was untouched or
    -- already processed earlier in the loop
    have hgood0 : GoodV (processVertex h v0) v0 := by
      rcases hstat v0 (List.mem_cons_self _ _) with hsame | hgood
      · apply processVertex_GoodV h v0 g1.vertices hverts
        · intro d hd
          have hset : setDOf h v0.prescinct_id = setDOf g1 v0.prescinct_id := by
            unfold setDOf
            rw [hsame.2.1]
          rw [hsame.1 d]
          exact hA0 d (hset ▸ hd)
        · intro hse hnb
          have hset : setDOf g1 v0.prescinct_id = [] := by
            unfold setDOf at hse ⊢
            rw [← hsame.2.1]
            exact hse
          rw [hsame.2.2]
          exact hB0 hset hnb
      · exact processVertex_GoodV_again h v0 g1.vertices hverts hgood
    -- statuses survive the processing of v0
    have hstat1 : ∀ v' ∈ L', SameAt g1 (processVertex h v0) v'.prescinct_id ∨
        GoodV (processVertex h v0) v' := by
      intro v' hv'
      by_cases hid : v'.prescinct_id = v0.prescinct_id
      · right
        have hcan' := (hpre v' (List.mem_cons_of_mem _ hv')).1
        rw [hid] at hcan'
        rw [hcan', ← hcan0]
        exact hgood0
      · have hsame1 := processVertex_SameAt h v0 v'.prescinct_id hid
        rcases hstat v' (List.mem_cons_of_mem _ hv') with hsame | hg
        · exact Or.inl (SameAt_trans hsame hsame1)
        · exact Or.inr (GoodV_congr h _ v' (h1verts.trans hverts.symm) hsame1 hg)
    obtain ⟨ihv, ihPres, ihAll⟩ := ih (processVertex h v0) h1verts
      (fun v' hv' => hpre v' (List.mem_cons_of_mem _ hv')) hstat1
    refine ⟨ihv, ?_, ?_⟩
    · intro v'' hg hcan''
      by_cases hid : v''.prescinct_id = v0.prescinct_id
      · have : v'' = v0 := by
          rw [hcan'', hid, ← hcan0]
        subst this
        exact ihPres v'' hgood0 hcan''
      · exact ihPres v''
          (GoodV_congr h _ v'' (h1verts.trans hverts.symm)
            (processVertex_SameAt h v0 v''.prescinct_id hid) hg) hcan''
    · intro v' hv'
      rcases List.mem_cons.mp hv' with rfl | hm
      · exact ihPres v' hgood0 hcan0
      · exact ihAll v' hm

theorem setDistrict_WF (g : Graph) (pid nd : Int) (hwf : WF g) (h : Graph)
    (hverts : h.vertices = setDistrict g.vertices pid nd) : WF h := by
  constructor
  · rw [hverts, setDistrict_ids]
    exact hwf.1
  · intro v hv aid ha
    rw [hverts] at hv
    obtain ⟨w0, hw0, hfw0⟩ := List.mem_map.mp hv
    have hadj : v.adj_vertices = w0.adj_vertices := by
      rw [← hfw0]
      by_cases h0 : w0.prescinct_id = pid <;> simp [h0]
    have hid : v.prescinct_id = w0.prescinct_id := by
      rw [← hfw0]
      by_cases h0 : w0.prescinct_id = pid <;> simp [h0]
    rw [hadj] at ha
    obtain ⟨hsome, hsym⟩ := hwf.2 w0 hw0 aid ha
    constructor
    · rw [hverts, dgetV_setDistrict]
      cases ho : dgetV g.vertices aid with
      | none => rw [ho] at hsome; cases hsome
      | some w => simp
    · rw [hverts, getV_setDistrict_adj, hid]
      exact hsym

theorem moveBody_inv (g : Graph) (pid nd : Int) (mv : Vertex)
    (hwf : WF g) (hinv : BorderInv g) (hv : dgetV g.vertices pid = some mv) :
    BorderInv (moveBody g pid nd) := by
  have hmv_mem : mv ∈ g.vertices := dgetV_mem _ _ _ hv
  have hmv_id : mv.prescinct_id = pid := dgetV_id _ _ _ hv
  have hmoved : getV (setDistrict g.vertices pid nd) pid = { mv with district_id := nd } :=
    getV_setDistrict_self _ _ _ _ hv
  have hmoved_adj : (getV (setDistrict g.vertices pid nd) pid).adj_vertices
      = mv.adj_vertices := by
    rw [hmoved]
  have hnodup1 : ((setDistrict g.vertices pid nd).map (fun v => v.prescinct_id)).Nodup := by
    rw [setDistrict_ids]
    exact hwf.1
  have hmb : moveBody g pid nd =
      ((getV (setDistrict g.vertices pid nd) pid).adj_vertices.map
          (fun aid => getV (setDistrict g.vertices pid nd) aid) ++
        [getV (setDistrict g.vertices pid nd) pid]).foldl processVertex
        { g with vertices := setDistrict g.vertices pid nd,
                 state := dinsert g.state pid nd } := rfl
  -- abbreviations for the affected list and post-assignment record
  have hLS : ∀ v' ∈ ((getV (setDistrict g.vertices pid nd) pid).adj_vertices.map
        (fun aid => getV (setDistrict g.vertices pid nd) aid) ++
      [getV (setDistrict g.vertices pid nd) pid]),
      v'.prescinct_id = pid ∨ v'.prescinct_id ∈ mv.adj_vertices := by
    intro v' hv'
    rcases List.mem_append.mp hv' with hm | hm
    · obtain ⟨aid, haid, rfl⟩ := List.mem_map.mp hm
      right
      rw [getV_id]
      rw [hmoved_adj] at haid
      exact haid
    · left
      rw [List.mem_singleton.mp hm, getV_id]
  have hcanL : ∀ v' ∈ ((getV (setDistrict g.vertices pid nd) pid).adj_vertices.map
        (fun aid => getV (setDistrict g.vertices pid nd) aid) ++
      [getV (setDistrict g.vertices pid nd) pid]),
      v' = getV (setDistrict g.vertices pid nd) v'.prescinct_id := by
    intro v' hv'
    rcases List.mem_append.mp hv' with hm | hm
    · obtain ⟨aid, haid, rfl⟩ := List.mem_map.mp hm
      rw [getV_id]
    · rw [List.mem_singleton.mp hm, getV_id]
  have hW : ∀ i, (i = pid ∨ i ∈ mv.adj_vertices) →
      ∃ w, dgetV g.vertices i = some w := by
    rintro i (rfl | hmem)
    · exact ⟨mv, hv⟩
    · have hsome := (hwf.2 mv hmv_mem i hmem).1
      cases ho : dgetV g.vertices i with
      | none => rw [ho] at hsome; cases hsome
      | some w => exact ⟨w, rfl⟩
  have hA : ∀ i, (i = pid ∨ i ∈ mv.adj_vertices) → ∀ d,
      d ∉ setDOf { g with vertices := setDistrict g.vertices pid nd,
                          state := dinsert g.state pid nd } i →
      dget { g with vertices := setDistrict g.vertices pid nd,
                    state := dinsert g.state pid nd }.vertex_on_border (i, d) = none := by
    intro i hS d hd
    obtain ⟨w, hw⟩ := hW i hS
    have hwid : w.prescinct_id = i := dgetV_id _ _ _ hw
    have hg := hinv w (dgetV_mem _ _ _ hw)
    show dget g.vertex_on_border (i, d) = none
    have hd' : d ∉ setDOf g w.prescinct_id := by
      rw [hwid]
      exact hd
    rw [← hwid, hg.1 d, if_neg ?_]
    intro hbd
    exact hd' ((hg.2.1 d).mpr hbd)
  have hB : ∀ v' ∈ ((getV (setDistrict g.vertices pid nd) pid).adj_vertices.map
        (fun aid => getV (setDistrict g.vertices pid nd) aid) ++
      [getV (setDistrict g.vertices pid nd) pid]),
      setDOf { g with vertices := setDistrict g.vertices pid nd,
                      state := dinsert g.state pid nd } v'.prescinct_id = [] →
      ¬ isBorderV (setDistrict g.vertices pid nd) v' →
      dget { g with vertices := setDistrict g.vertices pid nd,
                    state := dinsert g.state pid nd }.state v'.prescinct_id
        = some v'.district_id := by
    intro v' hv' hse hnb
    by_cases hid : v'.prescinct_id = pid
    · have hveq : v' = getV (setDistrict g.vertices pid nd) pid := by
        rw [hcanL v' hv', hid]
      have hdv : v'.district_id = nd := by
        rw [hveq, hmoved]
      show dget (dinsert g.state pid nd) v'.prescinct_id = some v'.district_id
      rw [hid, hdv, dget_dinsert, if_pos rfl]
    · have hmem : v'.prescinct_id ∈ mv.adj_vertices := by
        rcases hLS v' hv' with h' | h'
        · exact absurd h' hid
        · exact h'
      obtain ⟨w, hw⟩ := hW v'.prescinct_id (Or.inr hmem)
      have hwid : w.prescinct_id = v'.prescinct_id := dgetV_id _ _ _ hw
      have hveq : v' = w := by
        rw [hcanL v' hv', getV_setDistrict_ne g.vertices pid nd v'.prescinct_id hid,
          getV_eq_of_dgetV _ _ _ hw]
      have hg := hinv w (dgetV_mem _ _ _ hw)
      have hnbg : ¬ isBorderV g.vertices w := by
        intro hib
        obtain ⟨dd, hbd⟩ := (isBorderV_iff g.vertices w).mp hib
        have hmm : dd ∈ setDOf g w.prescinct_id := (hg.2.1 dd).mpr hbd
        rw [hwid] at hmm
        have hmm' : dd ∈ setDOf { g with vertices := setDistrict g.vertices pid nd,
                                         state := dinsert g.state pid nd } v'.prescinct_id := hmm
        rw [hse] at hmm'
        simp at hmm'
      show dget (dinsert g.state pid nd) v'.prescinct_id = some v'.district_id
      rw [dget_dinsert, if_neg hid, hveq]
      have hst := hg.2.2
      rw [if_neg hnbg] at hst
      exact hst
  obtain ⟨hfv, hPres, hAll⟩ :=
    processFold_aux
      { g with vertices := setDistrict g.vertices pid nd,
               state := dinsert g.state pid nd }
      ((getV (setDistrict g.vertices pid nd) pid).adj_vertices.map
          (fun aid => getV (setDistrict g.vertices pid nd) aid) ++
        [getV (setDistrict g.vertices pid nd) pid])
      { g with vertices := setDistrict g.vertices pid nd,
               state := dinsert g.state pid nd }
      rfl
      (fun v' hv' => ⟨hcanL v' hv', hA v'.prescinct_id (hLS v' hv') , hB v' hv'⟩)
      (fun v' _ => Or.inl (SameAt_refl _ _))
  intro v hvmem
  rw [moveBody_vertices] at hvmem
  obtain ⟨w0, hw0, hfw0⟩ := List.mem_map.mp hvmem
  by_cases hS : v.prescinct_id = pid ∨ v.prescinct_id ∈ mv.adj_vertices
  · have hcanv : getV (setDistrict g.vertices pid nd) v.prescinct_id = v := by
      apply getV_of_mem _ _ hnodup1
      exact hvmem
    have hvL : v ∈ ((getV (setDistrict g.vertices pid nd) pid).adj_vertices.map
        (fun aid => getV (setDistrict g.vertices pid nd) aid) ++
      [getV (setDistrict g.vertices pid nd) pid]) := by
      rcases hS with hpid | hadj
      · apply List.mem_append_right
        rw [List.mem_singleton, ← hcanv, hpid]
      · apply List.mem_append_left
        apply List.mem_map.mpr
        refine ⟨v.prescinct_id, ?_, hcanv⟩
        rw [hmoved_adj]
        exact hadj
    rw [hmb]
    exact hAll v hvL
  · push_neg at hS
    obtain ⟨hne, hnadj⟩ := hS
    have hfw0' : v = w0 := by
      have hw0id : w0.prescinct_id = v.prescinct_id := by
        rw [← hfw0]
        by_cases h0 : w0.prescinct_id = pid <;> simp [h0]
      rw [← hfw0]
      have h0 : ¬ w0.prescinct_id = pid := by
        rw [hw0id]
        exact hne
      simp [h0]
    have hvg : v ∈ g.vertices := by
      rw [hfw0']
      exact hw0
    have hsame : SameAt g (moveBody g pid nd) v.prescinct_id := by
      apply moveBody_SameAt g pid nd v.prescinct_id hne
      rw [getV_eq_of_dgetV g.vertices pid mv hv]
      exact hnadj
    have hg := hinv v hvg
    have hadjeq : ∀ aid ∈ v.adj_vertices,
        getV (setDistrict g.vertices pid nd) aid = getV g.vertices aid := by
      intro aid ha
      apply getV_setDistrict_ne
      intro he
      subst he
      have hsym := (hwf.2 v hvg aid ha).2
      rw [getV_eq_of_dgetV g.vertices aid mv hv] at hsym
      exact hnadj hsym
    have hbiff : ∀ d, bordersD (setDistrict g.vertices pid nd) v d ↔
        bordersD g.vertices v d := by
      intro d
      unfold bordersD
      constructor
      · rintro ⟨hdv, aid, ha, hgv⟩
        refine ⟨hdv, aid, ha, ?_⟩
        rw [← hadjeq aid ha]
        exact hgv
      · rintro ⟨hdv, aid, ha, hgv⟩
        refine ⟨hdv, aid, ha, ?_⟩
        rw [hadjeq aid ha]
        exact hgv
    have hibiff : isBorderV (setDistrict g.vertices pid nd) v ↔ isBorderV g.vertices v := by
      unfold isBorderV
      constructor
      · rintro ⟨aid, ha, hgv⟩
        refine ⟨aid, ha, ?_⟩
        rw [← hadjeq aid ha]
        exact hgv
      · rintro ⟨aid, ha, hgv⟩
        refine ⟨aid, ha, ?_⟩
        rw [hadjeq aid ha]
        exact hgv
    refine ⟨fun d => ?_, fun d => ?_, ?_⟩
    · rw [hsame.1 d, moveBody_vertices, hg.1 d]
      by_cases hbd : bordersD g.vertices v d
      · rw [if_pos hbd, if_pos ((hbiff d).mpr hbd)]
      · rw [if_neg hbd, if_neg (fun hh => hbd ((hbiff d).mp hh))]
    · unfold setDOf
      rw [hsame.2.1, moveBody_vertices]
      have hb := hg.2.1 d
      unfold setDOf at hb
      rw [hb]
      exact (hbiff d).symm
    · rw [hsame.2.2, moveBody_vertices, hg.2.2]
      by_cases hib : isBorderV g.vertices v
      · rw [if_pos hib, if_pos (hibiff.mpr hib)]
      · rw [if_neg hib, if_neg (fun hh => hib (hibiff.mp hh))]

/-! ### Preservation along runs -/

theorem change_preserves (g g' : Graph) (pid nd : Int)
    (hwf : WF g) (hinv : BorderInv g)
    (hok : change_vertex_district g pid nd = Except.ok g') :
    BorderInv g' ∧ WF g' := by
  obtain ⟨mv, hv, _, _, hg'⟩ := change_ok_inv g pid nd g' hok
  subst hg'
  constructor
  · exact moveBody_inv g pid nd mv hwf hinv hv
  · exact setDistrict_WF g pid nd hwf _ (moveBody_vertices g pid nd)

theorem applyMoves_preserves (ms : List (Int × Int)) :
    ∀ (g g' : Graph), WF g → BorderInv g →
      applyMoves g ms = Except.ok g' → BorderInv g' ∧ WF g' := by
  induction ms with
  | nil =>
    intro g g' hwf hinv hrun
    have : g = g' := Except.ok.inj hrun
    subst this
    exact ⟨hinv, hwf⟩
  | cons m t ih =>
    intro g g' hwf hinv hrun
    obtain ⟨p, n⟩ := m
    unfold applyMoves at hrun
    cases hc : change_vertex_district g p n with
    | ok g1 =>
      rw [hc] at hrun
      obtain ⟨hinv1, hwf1⟩ := change_preserves g g1 p n hwf hinv hc
      exact ih g1 g' hwf1 hinv1 hrun
    | error e =>
      rw [hc] at hrun
      cases hrun

/-! ### Construction produces a fresh graph with unique ids -/

theorem mem_ids_vinsert (vs : List Vertex) (v : Vertex) (x : Int)
    (hx : x ∈ (vinsert vs v).map (fun w => w.prescinct_id)) :
    x = v.prescinct_id ∨ x ∈ vs.map (fun w => w.prescinct_id) := by
  induction vs with
  | nil =>
    simp [vinsert] at hx
    exact Or.inl hx
  | cons w t ih =>
    by_cases hw : w.prescinct_id = v.prescinct_id
    · simp only [vinsert, if_pos hw, List.map_cons, List.mem_cons] at hx
      rcases hx with hx | hx
      · exact Or.inl hx
      · exact Or.inr (List.mem_cons_of_mem _ hx)
    · simp only [vinsert, if_neg hw, List.map_cons, List.mem_cons] at hx
      rcases hx with hx | hx
      · exact Or.inr (List.mem_cons.mpr (Or.inl hx))
      · rcases ih hx with h' | h'
        · exact Or.inl h'
        · exact Or.inr (List.mem_cons_of_mem _ h')

theorem nodup_ids_vinsert (vs : List Vertex) (v : Vertex)
    (hnd : (vs.map (fun w => w.prescinct_id)).Nodup) :
    ((vinsert vs v).map (fun w => w.prescinct_id)).Nodup := by
  induction vs with
  | nil => simp [vinsert]
  | cons w t ih =>
    simp only [List.map_cons, List.nodup_cons] at hnd
    by_cases hw : w.prescinct_id = v.prescinct_id
    · simp only [vinsert, if_pos hw, List.map_cons, List.nodup_cons]
      rw [← hw]
      exact hnd
    · simp only [vinsert, if_neg hw, List.map_cons, List.nodup_cons]
      refine ⟨?_, ih hnd.2⟩
      intro hm
      rcases mem_ids_vinsert t v w.prescinct_id hm with h' | h'
      · exact hw h'
      · exact hnd.1 h'

theorem graph_from_json_nodup_aux (rows : List (Int × Int × List Int)) :
    ∀ (acc : List Vertex), (acc.map (fun w => w.prescinct_id)).Nodup →
      ((rows.foldl (fun a r => vinsert a (mkVertex r)) acc).map
        (fun w => w.prescinct_id)).Nodup := by
  induction rows with
  | nil => intro acc h; exact h
  | cons r t ih =>
    intro acc h
    rw [List.foldl_cons]
    exact ih (vinsert acc (mkVertex r)) (nodup_ids_vinsert acc (mkVertex r) h)

theorem graph_from_json_nodup (rows : List (Int × Int × List Int)) :
    ((graph_from_json rows).vertices.map (fun w => w.prescinct_id)).Nodup := by
  show ((rows.foldl (fun a r => vinsert a (mkVertex r)) []).map
    (fun w => w.prescinct_id)).Nodup
  exact graph_from_json_nodup_aux rows [] (by simp)

theorem dget_state_fold_frame (l : List Vertex) :
    ∀ (st : List (Int × Int)) (i : Int), (∀ w ∈ l, w.prescinct_id ≠ i) →
      dget (l.foldl (fun st w => dinsert st w.prescinct_id w.district_id) st) i
        = dget st i := by
  induction l with
  | nil => intro st i _; rfl
  | cons w t ih =>
    intro st i hne
    rw [List.foldl_cons, ih _ i (fun w' hw' => hne w' (List.mem_cons_of_mem _ hw')),
      dget_dinsert, if_neg ?_]
    intro he
    exact hne w (List.mem_cons_self _ _) he.symm

theorem dget_state_fold_mem (l : List Vertex)
    (hnd : (l.map (fun w => w.prescinct_id)).Nodup) (v : Vertex) (hv : v ∈ l) :
    ∀ st, dget (l.foldl (fun st w => dinsert st w.prescinct_id w.district_id) st)
      v.prescinct_id = some v.district_id := by
  induction l with
  | nil => simp at hv
  | cons w t ih =>
    intro st
    simp only [List.map_cons, List.nodup_cons] at hnd
    rw [List.foldl_cons]
    rcases List.mem_cons.mp hv with rfl | hm
    · rw [dget_state_fold_frame t _ v.prescinct_id ?_, dget_dinsert, if_pos rfl]
      intro w' hw' he
      exact hnd.1 (he ▸ List.mem_map_of_mem (fun x => x.prescinct_id) hw')
    · exact ih hnd.2 hm _

theorem graph_from_json_fresh (rows : List (Int × Int × List Int)) :
    Fresh (graph_from_json rows) := by
  refine ⟨rfl, rfl, ?_⟩
  intro v hv
  exact dget_state_fold_mem (graph_from_json rows).vertices
    (graph_from_json_nodup rows) v hv []

/-! ### A reachable graph satisfies the border invariant -/

theorem reachable_inv (rows : List (Int × Int × List Int)) (ms : List (Int × Int))
    (g2 : Graph) (hwf : WF (graph_from_json rows))
    (hrun : applyMoves (get_border_vertices (graph_from_json rows)) ms
      = Except.ok g2) :
    BorderInv g2 ∧ WF g2 := by
  obtain ⟨hinv1, hverts1⟩ := get_border_vertices_establishes (graph_from_json rows)
    hwf (graph_from_json_fresh rows)
  have hwf1 : WF (get_border_vertices (graph_from_json rows)) :=
    WF_congr (graph_from_json rows) _ hverts1 hwf
  exact applyMoves_preserves ms _ g2 hwf1 hinv1 hrun

/-! ### Idempotence of discovery -/

theorem update_border_id (g : Graph) (v a : Vertex)
    (h1 : dget g.vertex_on_border (v.prescinct_id, a.district_id)
      = some (v.prescinct_id, v.district_id, a.district_id))
    (h2 : ∃ s, dget g.district_id_on_border_of_vertex v.prescinct_id = some s ∧
      a.district_id ∈ s)
    (h3 : dget g.state v.prescinct_id = some (-v.district_id)) :
    update_border g v a = g := by
  obtain ⟨s, hs, hmem⟩ := h2
  have hD : sadd ((dget g.district_id_on_border_of_vertex v.prescinct_id).getD [])
      a.district_id = s := by
    rw [hs]
    show sadd s a.district_id = s
    exact sadd_mem s _ hmem
  show { g with
      vertex_on_border := dinsert g.vertex_on_border (v.prescinct_id, a.district_id)
        (v.prescinct_id, v.district_id, a.district_id),
      state := dinsert g.state v.prescinct_id (-v.district_id),
      district_id_on_border_of_vertex := dinsert g.district_id_on_border_of_vertex
        v.prescinct_id (sadd ((dget g.district_id_on_border_of_vertex v.prescinct_id).getD [])
          a.district_id) } = g
  rw [dinsert_same _ _ _ h1, dinsert_same _ _ _ h3, hD, dinsert_same _ _ _ hs]

theorem foldl_id {α : Type} (f : Graph → α → Graph) :
    ∀ (l : List α) (g : Graph), (∀ x ∈ l, f g x = g) → l.foldl f g = g := by
  intro l
  induction l with
  | nil => intro g _; rfl
  | cons x t ih =>
    intro g hf
    rw [List.foldl_cons, hf x (List.mem_cons_self x t)]
    exact ih g (fun y hy => hf y (List.mem_cons_of_mem x hy))

theorem recompute_id (g : Graph) (v : Vertex) (hg : GoodV g v) :
    recomputeBorderOf g v = g := by
  unfold recomputeBorderOf
  apply foldl_id
  intro aid ha
  show (if v.district_id ≠ (getV g.vertices aid).district_id
      then update_border g v (getV g.vertices aid) else g) = g
  by_cases hd : v.district_id ≠ (getV g.vertices aid).district_id
  · rw [if_pos hd]
    have hbd : bordersD g.vertices v (getV g.vertices aid).district_id :=
      ⟨Ne.symm hd, aid, ha, rfl⟩
    apply update_border_id
    · have hx := hg.1 (getV g.vertices aid).district_id
      rw [if_pos hbd] at hx
      exact hx
    · have hm := (hg.2.1 (getV g.vertices aid).district_id).mpr hbd
      unfold setDOf at hm
      cases hdict : dget g.district_id_on_border_of_vertex v.prescinct_id with
      | none =>
        rw [hdict] at hm
        simp at hm
      | some s =>
        rw [hdict] at hm
        exact ⟨s, rfl, hm⟩
    · have hib : isBorderV g.vertices v := ⟨aid, ha, Ne.symm hd⟩
      have hx := hg.2.2
      rw [if_pos hib] at hx
      exact hx
  · rw [if_neg hd]

theorem get_border_vertices_idem (g : Graph) (hwf : WF g) (hfresh : Fresh g) :
    get_border_vertices (get_border_vertices g) = get_border_vertices g := by
  obtain ⟨hinv, _⟩ := get_border_vertices_establishes g hwf hfresh
  show (get_border_vertices g).vertices.foldl recomputeBorderOf (get_border_vertices g)
      = get_border_vertices g
  exact foldl_id recomputeBorderOf _ _ (fun v hv => recompute_id _ v (hinv v hv))

/-! ### Claim theorems on reachable graphs -/

/-- C8: on a freshly constructed graph (with unique ids, closed and symmetric
adjacency), running border discovery twice produces exactly the same border
index and the same per-vertex border sets as running it once; in fact the
whole second pass is the identity. -/
theorem discovery_idempotent (rows : List (Int × Int × List Int))
    (hwf : WF (graph_from_json rows)) :
    (get_border_vertices (get_border_vertices (graph_from_json rows))).vertex_on_border
      = (get_border_vertices (graph_from_json rows)).vertex_on_border ∧
    (get_border_vertices (get_border_vertices (graph_from_json rows))).district_id_on_border_of_vertex
      = (get_border_vertices (graph_from_json rows)).district_id_on_border_of_vertex := by
  have h := get_border_vertices_idem (graph_from_json rows) hwf
    (graph_from_json_fresh rows)
  rw [h]
  exact ⟨rfl, rfl⟩

/-- C8 witness: discovery on the scenario graph is idempotent. -/
theorem discovery_idempotent_witness :
    (get_border_vertices (get_border_vertices (graph_from_json scenarioRows))).vertex_on_border
      = (get_border_vertices (graph_from_json scenarioRows)).vertex_on_border ∧
    (get_border_vertices (get_border_vertices (graph_from_json scenarioRows))).district_id_on_border_of_vertex
      = (get_border_vertices (graph_from_json scenarioRows)).district_id_on_border_of_vertex :=
  discovery_idempotent scenarioRows (by decide)

/-- C1: starting from a freshly constructed graph on which border discovery
has run, after any sequence of successful moves, for every vertex `v` and
every neighbor of `v`, the pair `(v.prescinct_id, neighbor district)` is a
key of the border index iff the neighbor's district differs from `v`'s —
for the full vertex set, not only vertices touched by the moves. -/
theorem border_index_characterization (rows : List (Int × Int × List Int))
    (ms : List (Int × Int)) (g2 : Graph) (hwf : WF (graph_from_json rows))
    (hrun : applyMoves (get_border_vertices (graph_from_json rows)) ms
      = Except.ok g2) :
    ∀ v ∈ g2.vertices, ∀ aid ∈ v.adj_vertices,
      ((dget g2.vertex_on_border
          (v.prescinct_id, (getV g2.vertices aid).district_id)).isSome = true
        ↔ (getV g2.vertices aid).district_id ≠ v.district_id) := by
  obtain ⟨hinv, _⟩ := reachable_inv rows ms g2 hwf hrun
  intro v hv aid ha
  have hg := hinv v hv
  constructor
  · intro hsome
    have hx := hg.1 (getV g2.vertices aid).district_id
    by_cases hbd : bordersD g2.vertices v (getV g2.vertices aid).district_id
    · exact hbd.1
    · rw [if_neg hbd] at hx
      rw [hx] at hsome
      cases hsome
  · intro hne
    have hbd : bordersD g2.vertices v (getV g2.vertices aid).district_id :=
      ⟨hne, aid, ha, rfl⟩
    have hx := hg.1 (getV g2.vertices aid).district_id
    rw [if_pos hbd] at hx
    rw [hx]
    rfl

/-- C1 witness: after the scenario move, vertex 1's only neighbor (vertex 2,
now in district 2 ≠ 1) yields a border-index key. -/
theorem border_index_characterization_witness :
    (dget scenarioMoved.vertex_on_border
      (1, (getV scenarioMoved.vertices 2).district_id)).isSome = true := by
  have h := border_index_characterization scenarioRows [(2, 2)] scenarioMoved
    (by decide) (by rfl)
  exact (h ⟨1, 1, [2]⟩ (by decide) 2 (by decide)).mpr (by decide)

/-- C2 amended: after construction + discovery + any successful moves, a
vertex is a key of `district_id_on_border_of_vertex` bound to a non-empty
set iff it has a neighbor in a different district.  (The original claim's
further assertion — that an emptied set's key is removed — is false; see the
counterexample.) -/
theorem border_set_nonempty_iff (rows : List (Int × Int × List Int))
    (ms : List (Int × Int)) (g2 : Graph) (hwf : WF (graph_from_json rows))
    (hrun : applyMoves (get_border_vertices (graph_from_json rows)) ms
      = Except.ok g2) :
    ∀ v ∈ g2.vertices,
      ((∃ s, dget g2.district_id_on_border_of_vertex v.prescinct_id = some s ∧ s ≠ [])
        ↔ isBorderV g2.vertices v) := by
  obtain ⟨hinv, _⟩ := reachable_inv rows ms g2 hwf hrun
  intro v hv
  have hg := hinv v hv
  constructor
  · rintro ⟨s, hs, hne⟩
    obtain ⟨d, hd⟩ := List.exists_mem_of_ne_nil s hne
    have hm : d ∈ setDOf g2 v.prescinct_id := by
      unfold setDOf
      rw [hs]
      exact hd
    exact (isBorderV_iff _ v).mpr ⟨d, (hg.2.1 d).mp hm⟩
  · intro hib
    obtain ⟨d, hbd⟩ := (isBorderV_iff _ v).mp hib
    have hm := (hg.2.1 d).mpr hbd
    unfold setDOf at hm
    cases hs : dget g2.district_id_on_border_of_vertex v.prescinct_id with
    | none =>
      rw [hs] at hm
      simp at hm
    | some s =>
      rw [hs] at hm
      refine ⟨s, rfl, ?_⟩
      intro he
      rw [he] at hm
      simp at hm

/-- C2 witness: after the scenario move, vertex 1 borders district 2, so its
binding is a non-empty set. -/
theorem border_set_nonempty_iff_witness :
    ∃ s, dget scenarioMoved.district_id_on_border_of_vertex 1 = some s ∧ s ≠ [] := by
  have h := border_set_nonempty_iff scenarioRows [(2, 2)] scenarioMoved
    (by decide) (by rfl) ⟨1, 1, [2]⟩ (by decide)
  exact h.mpr (by decide)

/-- C7: in every reachable graph, a descriptor stored in the border index
under key `(v, d)` records `v`'s current district as its middle component —
descriptors are never left stale after any move. -/
theorem descriptor_not_stale (rows : List (Int × Int × List Int))
    (ms : List (Int × Int)) (g2 : Graph) (hwf : WF (graph_from_json rows))
    (hrun : applyMoves (get_border_vertices (graph_from_json rows)) ms
      = Except.ok g2) :
    ∀ v ∈ g2.vertices, ∀ (d : Int) (desc : Int × Int × Int),
      dget g2.vertex_on_border (v.prescinct_id, d) = some desc →
      desc.2.1 = v.district_id := by
  obtain ⟨hinv, _⟩ := reachable_inv rows ms g2 hwf hrun
  intro v hv d desc hdesc
  have hx := (hinv v hv).1 d
  by_cases hbd : bordersD g2.vertices v d
  · rw [if_pos hbd] at hx
    rw [hx] at hdesc
    rw [← Option.some.inj hdesc]
  · rw [if_neg hbd] at hx
    rw [hx] at hdesc
    cases hdesc

/-- C7 witness: the descriptor at key `(1, 2)` after the scenario move
records vertex 1's current district 1. -/
theorem descriptor_not_stale_witness :
    ((1 : Int), (1 : Int), (2 : Int)).2.1 = (⟨1, 1, [2]⟩ : Vertex).district_id :=
  descriptor_not_stale scenarioRows [(2, 2)] scenarioMoved (by decide) (by rfl)
    ⟨1, 1, [2]⟩ (by decide) 2 (1, 1, 2) (by decide)

/-- C9: in every reachable graph (after discovery and any successful moves),
column 0 of the state tensor holds, for every vertex, its current district
id, negated exactly when the vertex is currently a border vertex. -/
theorem state_mirror_consistent (rows : List (Int × Int × List Int))
    (ms : List (Int × Int)) (g2 : Graph) (hwf : WF (graph_from_json rows))
    (hrun : applyMoves (get_border_vertices (graph_from_json rows)) ms
      = Except.ok g2) :
    ∀ v ∈ g2.vertices, dget g2.state v.prescinct_id
      = some (if isBorderV g2.vertices v then -v.district_id else v.district_id) := by
  obtain ⟨hinv, _⟩ := reachable_inv rows ms g2 hwf hrun
  exact fun v hv => (hinv v hv).2.2

/-- C9 witness: after the scenario move, vertex 1 is a border vertex and its
state entry is its negated district. -/
theorem state_mirror_consistent_witness :
    dget scenarioMoved.state 1
      = some (if isBorderV scenarioMoved.vertices ⟨1, 1, [2]⟩
          then -(⟨1, 1, [2]⟩ : Vertex).district_id
          else (⟨1, 1, [2]⟩ : Vertex).district_id) :=
  state_mirror_consistent scenarioRows [(2, 2)] scenarioMoved (by decide) (by rfl)
    ⟨1, 1, [2]⟩ (by decide)
